import Mathlib

/-!
# file-reconstructor: majority-vote repetition codec

A shallow embedding of `reconstruct.go`.  The program encodes its input as a
header (the data length, written `LengthRedundancy` times as a big-endian
64-bit word) followed by back-to-back copies of the zero-padded data, and
decodes by a per-bit majority vote over all copies found on the medium.

Conventions of the embedding:

* a byte is a `Fin 256`; a `uint64` is a `Nat` kept below `2 ^ 64` by an
  explicit wrap (`uint64`); an `int64` / `int` is an `Int` wrapped by `int64`;
* `os.Stdin` is the list of bytes still to be read, `os.Stdout` on a medium of
  finite size is a `Sink`, the `bytes.Reader` handed to `decodeReadSeeker` is a
  `Reader` (slice and index);
* the global `totalBitErrors` is threaded through explicitly;
* `log.Fatal`, `os.Exit` and a run-time panic end a run with `Result.fatal` /
  an `Exit` value; the unbounded `ScanLoop` takes fuel and reports
  `Result.outOfFuel` when the fuel does not suffice.
-/

namespace Reconstruct

/-! ## Machine integers -/

/-- Wrap an integer to the range of Go's `uint64`. -/
def uint64 (x : Int) : Nat := (x % 2 ^ 64).toNat

/-- Wrap an integer to the range of Go's `int64` (two's complement). -/
def int64 (x : Int) : Int := (x + 2 ^ 63) % 2 ^ 64 - 2 ^ 63

abbrev Byte := Fin 256

/-- Go's `byte(v)` conversion of an unsigned value. -/
def toByte (v : Nat) : Byte := ⟨v % 256, Nat.mod_lt _ (by decide)⟩

/-! ## Constants -/

def LengthRedundancy : Nat := 10000

/-- The default `MaxNumCopies = math.MaxUint64`. -/
def MaxNumCopies : Nat := 2 ^ 64 - 1

def WordSize : Nat := 64

def WordBytes : Nat := 8

/-! ## `encoding/binary`, big endian -/

/-- `binary.BigEndian.PutUint64`: the 8 bytes of a word, most significant first. -/
def putUint64 (v : Nat) : List Byte :=
  [toByte (v >>> 56), toByte (v >>> 48), toByte (v >>> 40), toByte (v >>> 32),
   toByte (v >>> 24), toByte (v >>> 16), toByte (v >>> 8), toByte v]

/-- `binary.BigEndian.Uint64`: the word held by (the first 8 of) a list of bytes. -/
def getUint64 (bs : List Byte) : Nat :=
  (bs.take 8).foldl (fun acc b => acc <<< 8 ||| b.val) 0

/-! ## The bit voter -/

/-- `type WordValues struct { OneCount [WordSize]uint64; Count uint64 }`. -/
structure WordValues where
  OneCount : Mathlib.Vector Nat 64
  Count : Nat
  deriving DecidableEq

/-- The zero value `WordValues{}`. -/
def WordValues.zero : WordValues := { OneCount := Mathlib.Vector.replicate 64 0, Count := 0 }

/-- `func (w *WordValues) AddWord(word uint64)`. -/
def WordValues.AddWord (w : WordValues) (word : Nat) : WordValues :=
  let oc := (List.finRange 64).foldl
    (fun (oc : Mathlib.Vector Nat 64) (i : Fin 64) =>
      let mask := uint64 (1 <<< i.val)
      oc.set i (uint64 (oc.get i + ((word &&& mask) >>> i.val))))
    w.OneCount
  { OneCount := oc, Count := uint64 (w.Count + 1) }

/-- One iteration of the loop of `DecodeWord`: the state is the word built so
far and the global `totalBitErrors`. -/
def decodeBit (w : WordValues) (threshold : Nat) (acc : Nat × Nat) (i : Fin 64) : Nat × Nat :=
  let oc := w.OneCount.get i
  if oc > threshold then
    (acc.1 ||| uint64 (1 <<< i.val), uint64 (acc.2 + uint64 ((w.Count : Int) - oc)))
  else
    (acc.1, uint64 (acc.2 + oc))

/-- `func (w *WordValues) DecodeWord() (word uint64)`, with the global
`totalBitErrors` as an extra argument and result. -/
def WordValues.DecodeWord (w : WordValues) (totalBitErrors : Nat) : Nat × Nat :=
  let threshold := w.Count / 2
  (List.finRange 64).foldl (decodeBit w threshold) (0, totalBitErrors)

/-- `func paddedLength(actualLength uint64) uint64`. -/
def paddedLength (actualLength : Nat) : Nat :=
  if actualLength % WordBytes = 0 then
    actualLength
  else
    uint64 (actualLength + (WordBytes - actualLength % WordBytes))

/-! ## Streams -/

/-- How a run of a procedure ends. -/
inductive Result (α : Type) where
  /-- The procedure returned. -/
  | done (a : α)
  /-- The run was ended by `log.Fatal` or by a run-time panic. -/
  | fatal
  /-- The unbounded scan loop was still running when the fuel ran out. -/
  | outOfFuel
  deriving DecidableEq

/-- A `bytes.Reader`: the slice `s` and the current reading index `i`. -/
structure Reader where
  s : List Byte
  i : Int
  deriving DecidableEq

/-- `io.ReadFull(f, buf)` and `io.ReadAtLeast(f, buf, len(buf))` with `len(buf) = n`:
the bytes obtained, fewer than `n` (an `io.EOF` or `io.ErrUnexpectedEOF` error)
when the slice ends first, and the reader advanced past them. -/
def Reader.readFull (f : Reader) (n : Nat) : List Byte × Reader :=
  let got := (f.s.drop f.i.toNat).take n
  (got, { f with i := f.i + got.length })

/-- `func (r *Reader) Seek(offset int64, whence int) (int64, error)`; `none` is
an error (a negative position, or an invalid `whence`). -/
def Reader.Seek (f : Reader) (offset : Int) (whence : Nat) : Option (Int × Reader) :=
  match whence with
  | 0 => if offset < 0 then none else some (offset, { f with i := offset })
  | 1 =>
    let abs := int64 (f.i + offset)
    if abs < 0 then none else some (abs, { f with i := abs })
  | 2 =>
    let abs := int64 (f.s.length + offset)
    if abs < 0 then none else some (abs, { f with i := abs })
  | _ => none

/-- `var v uint64; binary.Read(f, endian, &v)` with the error ignored: `v`
keeps its zero value when fewer than 8 bytes could be read. -/
def binaryRead (f : Reader) : Nat × Reader :=
  let r := f.readFull WordBytes
  (if r.1.length = WordBytes then getUint64 r.1 else 0, r.2)

/-- The standard output on a medium with `room` bytes left. -/
structure Sink where
  written : List Byte
  room : Nat
  deriving DecidableEq

/-- `os.Stdout.Write(b)`: as much of `b` as fits is written, and the number of
bytes written is returned. -/
def Sink.Write (k : Sink) (b : List Byte) : Nat × Sink :=
  let n := min b.length k.room
  (n, { written := k.written ++ b.take n, room := k.room - n })

/-- How the process ends. -/
inductive Exit where
  /-- The procedure `encode` returned (exit status 0). -/
  | returned
  /-- A call of `os.Exit(code)`. -/
  | exit (code : Nat)
  deriving DecidableEq

/-! ## The encoder -/

/-- The header loop of `encode`: `binary.Write(os.Stdout, endian, dataLength)`,
`n` times, errors ignored. -/
def writeHeader (dataLength : Nat) : Nat → Sink → Sink
  | 0, k => k
  | n + 1, k => writeHeader dataLength n (k.Write (putUint64 dataLength)).2

/-- The copy loop of `encode`, `for i := uint64(0); i < MaxNumCopies; i++`, with
`fuel = MaxNumCopies - i` iterations left. -/
def writeCopies (data : List Byte) : Nat → Nat → Sink → Exit × Sink
  | 0, _, k => (Exit.returned, k)
  | fuel + 1, i, k =>
    let r := k.Write data
    if r.1 ≠ data.length then
      if i < 3 then (Exit.exit 1, r.2) else (Exit.exit 0, r.2)
    else
      writeCopies data fuel (i + 1) r.2

/-- The data `encode` replicates: its input, padded to a whole number of words. -/
def padded (input : List Byte) : List Byte :=
  let dataLength := uint64 input.length
  let padByteCount := uint64 ((paddedLength dataLength : Int) - dataLength)
  if padByteCount ≠ 0 then input ++ List.replicate padByteCount 0 else input

/-- `func encode()`: `input` is what `ioutil.ReadAll(os.Stdin)` returns, `k` the
standard output, `maxNumCopies` the constant `MaxNumCopies`. -/
def encode (maxNumCopies : Nat) (input : List Byte) (k : Sink) : Exit × Sink :=
  let dataLength := uint64 input.length
  writeCopies (padded input) maxNumCopies 0 (writeHeader dataLength LengthRedundancy k)

/-! ## The decoder -/

/-- The `ScanLoop` of `decodeReadSeeker`: the value given to `numCopies` and the
reader as the loop leaves it. -/
def scanLoop (seekLen : Int) : Nat → Reader → Int → Result (Int × Reader)
  | 0, _, _ => Result.outOfFuel
  | fuel + 1, f, i =>
    let r := f.readFull WordBytes
    if r.1.length ≠ WordBytes then
      Result.done (i, r.2)
    else
      match r.2.Seek seekLen 1 with
      | none => Result.fatal
      | some p => scanLoop seekLen fuel p.2 (int64 (i + 1))

/-- The inner loop of `decodeReadSeeker`, `n` iterations: one reading per copy is
added to the accumulator; `none` is a failed `Seek`. -/
def voteLoop (seekLen : Int) : Nat → Reader → WordValues → Option (WordValues × Reader)
  | 0, f, w => some (w, f)
  | n + 1, f, w =>
    let r := binaryRead f
    match r.2.Seek seekLen 1 with
    | none => none
    | some p => voteLoop seekLen n p.2 (w.AddWord r.1)

/-- The state the word loop of `decodeReadSeeker` carries: the reader, the bytes
written to the standard output and the global `totalBitErrors`. -/
structure DecodeState where
  f : Reader
  out : List Byte
  totalBitErrors : Nat
  deriving DecidableEq

/-- The body of the word loop of `decodeReadSeeker` for the index `j`. -/
def decodeStep (actualLength : Nat) (paddedLen seekStart seekLen numCopies maxj : Int)
    (j : Int) (st : DecodeState) : Result DecodeState :=
  match st.f.Seek (int64 (seekStart + int64 (j * WordBytes))) 0 with
  | none => Result.fatal
  | some p =>
    match voteLoop seekLen numCopies.toNat p.2 WordValues.zero with
    | none => Result.fatal
    | some v =>
      let d := v.1.DecodeWord st.totalBitErrors
      let outputWord := d.1
      if j ≠ maxj - 1 ∨ actualLength = uint64 paddedLen then
        Result.done { f := v.2, out := st.out ++ putUint64 outputWord, totalBitErrors := d.2 }
      else
        let byteCount := uint64 ((uint64 paddedLen : Int) - actualLength)
        let writeCount := uint64 ((WordBytes : Int) - byteCount)
        if writeCount > WordBytes then
          Result.fatal
        else
          Result.done { f := v.2, out := st.out ++ (putUint64 outputWord).take writeCount,
                        totalBitErrors := d.2 }

/-- The word loop of `decodeReadSeeker`, `for j := int64(0); j < maxj; j++`, with
`n` iterations left. -/
def wordLoop (actualLength : Nat) (paddedLen seekStart seekLen numCopies maxj : Int) :
    Nat → Int → DecodeState → Result DecodeState
  | 0, _, st => Result.done st
  | n + 1, j, st =>
    match decodeStep actualLength paddedLen seekStart seekLen numCopies maxj j st with
    | Result.done st1 =>
      wordLoop actualLength paddedLen seekStart seekLen numCopies maxj n (j + 1) st1
    | Result.fatal => Result.fatal
    | Result.outOfFuel => Result.outOfFuel

/-- `func decodeReadSeeker(f io.ReadSeeker, actualLength uint64)`: the bytes written
to the standard output and the new value of `totalBitErrors`. -/
def decodeReadSeeker (fuel : Nat) (f : Reader) (actualLength : Nat) (totalBitErrors : Nat) :
    Result (List Byte × Nat) :=
  let paddedLen := int64 (paddedLength actualLength)
  match f.Seek 0 1 with
  | none => Result.fatal
  | some s =>
    let seekStart := s.1
    let seekLen := int64 (paddedLen - WordBytes)
    match scanLoop seekLen fuel s.2 0 with
    | Result.outOfFuel => Result.outOfFuel
    | Result.fatal => Result.fatal
    | Result.done c =>
      let numCopies := c.1
      let maxj := Int.tdiv paddedLen WordBytes
      match wordLoop actualLength paddedLen seekStart seekLen numCopies maxj maxj.toNat 0
          { f := c.2, out := [], totalBitErrors := totalBitErrors } with
      | Result.done st => Result.done (st.out, st.totalBitErrors)
      | Result.fatal => Result.fatal
      | Result.outOfFuel => Result.outOfFuel

/-- The header loop of `decode`: `n` words are read from the standard input and
added to the accumulator. -/
def readLength : Nat → Reader → WordValues → WordValues × Reader
  | 0, f, w => (w, f)
  | n + 1, f, w =>
    let r := binaryRead f
    readLength n r.2 (w.AddWord r.1)

/-- The length `decode` decides from the front of its input, the new value of
`totalBitErrors`, and the standard input past the header. -/
def decodeLength (stdin : List Byte) : Nat × Nat × Reader :=
  let h := readLength LengthRedundancy { s := stdin, i := 0 } WordValues.zero
  let d := h.1.DecodeWord 0
  (d.1, d.2, h.2)

/-- `func decode()` with `useSeek = false`: the rest of the standard input is
buffered (`ioutil.ReadAll`) and handed to `decodeReadSeeker` as a `bytes.Reader`. -/
def decode (fuel : Nat) (stdin : List Byte) : Result (List Byte × Nat) :=
  let h := decodeLength stdin
  let data := h.2.2.s.drop h.2.2.i.toNat
  decodeReadSeeker fuel { s := data, i := 0 } h.1 h.2.1

/-! ## Corruption of a stream -/

/-- Every bit of the byte inverted. -/
def flipByte (b : Byte) : Byte := ⟨255 - b.val, by omega⟩

/-- What one bit position contributes to the disagreement total, in the words
of the specification: `total - one-counter` for a bit decided 1, the
one-counter for a bit decided 0. -/
def disagreement (w : WordValues) (i : Fin 64) : Int :=
  if w.OneCount.get i > w.Count / 2 then (w.Count : Int) - w.OneCount.get i
  else w.OneCount.get i

/-! ## Specification-side descriptions of streams -/

/-- The word a `binaryRead` at offset `p` of the slice `s` yields: the big-endian
word at that offset, or 0 when fewer than 8 bytes are left. -/
def readAt (s : List Byte) (p : Nat) : Nat :=
  if ((s.drop p).take 8).length = 8 then getUint64 ((s.drop p).take 8) else 0

/-- The header the encoder writes for the words `ws`: their 8-byte big-endian
encodings, one after the other. -/
def headerOf (ws : List Nat) : List Byte := ws.flatMap putUint64

/-- The number of bits set among the 64 bits of a word. -/
def popcount64 (x : Nat) : Nat := ∑ i : Fin 64, (x.testBit i.val).toNat

/-- The number of offsets `0, P, 2P, ...` of a body of `B` bytes at which a whole
word can still be read. -/
def scanCount (B P : Nat) : Nat := if B < 8 then 0 else (B - 8) / P + 1

/-- The readings the inner loop of `decodeReadSeeker` takes: `n` words, the first
at offset `q` of the slice `s`, each `P` bytes after the one before. -/
def votes (s : List Byte) (P : Nat) : Nat → Nat → List Nat
  | _, 0 => []
  | q, n + 1 => readAt s q :: votes s P (q + P) n

/-- Every bit inverted in the copies a subset selects: the body is cut into
consecutive copies of `P` bytes, and copy number `c` has all its bytes flipped
when entry `c` of `flips` is `true`; what follows the last entry is left as it is. -/
def flipCopies (P : Nat) : List Bool → List Byte → List Byte
  | [], body => body
  | b :: bs, body =>
    (if b then (body.take P).map flipByte else body.take P) ++ flipCopies P bs (body.drop P)

/-! ## Machine-integer lemmas -/

theorem uint64_of_lt {n : Nat} (h : n < 2 ^ 64) : uint64 n = n := by
  unfold uint64; omega

theorem uint64_lt (x : Int) : uint64 x < 2 ^ 64 := by
  unfold uint64; omega

theorem uint64_cast (x : Int) : ((uint64 x : Nat) : Int) = x % 2 ^ 64 := by
  unfold uint64; omega

theorem uint64_modEq (x : Int) : ((uint64 x : Nat) : Int) ≡ x [ZMOD 2 ^ 64] := by
  rw [uint64_cast]; exact Int.mod_modEq x _

theorem uint64_mask {i : Nat} (hi : i < 64) : uint64 ((1 <<< i : Nat) : Int) = 2 ^ i := by
  rw [Nat.one_shiftLeft]
  have h : 2 ^ i < 2 ^ 64 := Nat.pow_lt_pow_right (by decide) hi
  exact uint64_of_lt h

/-- The expression `(word & mask) >> i` of `AddWord` is bit `i` of the word. -/
theorem and_mask_shift (word : Nat) {i : Nat} (hi : i < 64) :
    (word &&& uint64 ((1 <<< i : Nat) : Int)) >>> i = (word.testBit i).toNat := by
  rw [uint64_mask hi]
  apply Nat.eq_of_testBit_eq
  intro k
  rw [Nat.testBit_shiftRight, Nat.testBit_and, Nat.testBit_two_pow, Nat.testBit_bool_to_nat]
  cases hk : k with
  | zero => simp
  | succ k => simp

/-! ## The bit voter, counter by counter -/

/-- A loop that rewrites each listed slot of an array once, from its own old value. -/
theorem foldl_set_get {n : Nat} (g : Fin n → Nat → Nat) :
    ∀ (l : List (Fin n)) (f : Mathlib.Vector Nat n) (j : Fin n), l.Nodup →
      (l.foldl (fun oc i => oc.set i (g i (oc.get i))) f).get j
        = if j ∈ l then g j (f.get j) else f.get j := by
  intro l
  induction l with
  | nil => intro f j _; simp
  | cons a l ih =>
    intro f j hnd
    rw [List.nodup_cons] at hnd
    rw [List.foldl_cons, ih _ _ hnd.2]
    by_cases hja : j = a
    · subst hja
      simp [hnd.1]
    · have hne : a ≠ j := fun h => hja h.symm
      by_cases hjl : j ∈ l
      · simp [hjl, Mathlib.Vector.get_set_of_ne hne]
      · simp [hjl, hja, Mathlib.Vector.get_set_of_ne hne]

theorem AddWord_OneCount (w : WordValues) (word : Nat) (i : Fin 64) :
    (w.AddWord word).OneCount.get i
      = uint64 (w.OneCount.get i + (word.testBit i.val).toNat) := by
  unfold WordValues.AddWord
  have h := foldl_set_get
    (fun (i : Fin 64) (x : Nat) =>
      uint64 (x + ((word &&& uint64 ((1 <<< i.val : Nat) : Int)) >>> i.val)))
    (List.finRange 64) w.OneCount i (List.nodup_finRange 64)
  simp only [List.mem_finRange, if_true] at h
  simp only []
  rw [h, and_mask_shift word i.isLt]

theorem AddWord_Count (w : WordValues) (word : Nat) :
    (w.AddWord word).Count = uint64 (w.Count + 1) := rfl

theorem uint64_add_left (a : Nat) (b : Int) :
    ((uint64 ((a : Int) + b) : Nat) : Int) ≡ a + b [ZMOD 2 ^ 64] := uint64_modEq _

theorem decodeBit_fst (w : WordValues) (thr : Nat) (acc : Nat × Nat) (i : Fin 64) :
    (decodeBit w thr acc i).1
      = if w.OneCount.get i > thr then acc.1 ||| 2 ^ i.val else acc.1 := by
  unfold decodeBit
  simp only []
  split
  · rw [uint64_mask i.isLt]
  · rfl

theorem decodeBit_snd (w : WordValues) (thr : Nat) (acc : Nat × Nat) (i : Fin 64) :
    (decodeBit w thr acc i).2
      = if w.OneCount.get i > thr then uint64 (acc.2 + uint64 ((w.Count : Int) - w.OneCount.get i))
        else uint64 (acc.2 + w.OneCount.get i) := by
  unfold decodeBit
  simp only []
  split <;> rfl

theorem decodeBit_snd_lt (w : WordValues) (thr : Nat) (acc : Nat × Nat) (i : Fin 64) :
    (decodeBit w thr acc i).2 < 2 ^ 64 := by
  rw [decodeBit_snd]
  split <;> exact uint64_lt _

theorem foldl_decodeBit_testBit (w : WordValues) (thr : Nat) (k : Nat) :
    ∀ (l : List (Fin 64)) (acc : Nat × Nat),
      ((l.foldl (decodeBit w thr) acc).1).testBit k
        = (acc.1.testBit k || l.any (fun i => decide (i.val = k) && decide (w.OneCount.get i > thr))) := by
  intro l
  induction l with
  | nil => intro acc; simp
  | cons a l ih =>
    intro acc
    rw [List.foldl_cons, ih, decodeBit_fst, List.any_cons]
    by_cases h : w.OneCount.get a > thr
    · simp [h, Nat.testBit_or, Nat.testBit_two_pow, Bool.or_assoc]
    · simp [h]

theorem foldl_decodeBit_snd (w : WordValues) :
    ∀ (l : List (Fin 64)) (acc : Nat × Nat),
      (((l.foldl (decodeBit w (w.Count / 2)) acc).2 : Nat) : Int)
        ≡ acc.2 + (l.map (disagreement w)).sum [ZMOD 2 ^ 64] := by
  intro l
  induction l with
  | nil => intro acc; simp
  | cons a l ih =>
    intro acc
    rw [List.foldl_cons, List.map_cons, List.sum_cons]
    refine (ih _).trans ?_
    rw [← add_assoc]
    apply Int.ModEq.add_right
    rw [decodeBit_snd]
    unfold disagreement
    split
    · refine (uint64_modEq _).trans ?_
      push_cast
      exact Int.ModEq.add_left _ (uint64_modEq _)
    · refine (uint64_modEq _).trans ?_
      push_cast
      exact Int.ModEq.refl _

theorem foldl_decodeBit_snd_lt (w : WordValues) (thr : Nat) :
    ∀ (l : List (Fin 64)) (acc : Nat × Nat), acc.2 < 2 ^ 64 →
      (l.foldl (decodeBit w thr) acc).2 < 2 ^ 64 := by
  intro l
  induction l with
  | nil => intro acc h; simpa using h
  | cons a l ih =>
    intro acc _
    rw [List.foldl_cons]
    exact ih _ (decodeBit_snd_lt _ _ _ _)

/-- Bit `k` of the word `DecodeWord` returns. -/
theorem DecodeWord_testBit (w : WordValues) (t : Nat) (i : Fin 64) :
    (w.DecodeWord t).1.testBit i.val = decide (w.OneCount.get i > w.Count / 2) := by
  unfold WordValues.DecodeWord
  simp only []
  rw [foldl_decodeBit_testBit]
  simp only [Nat.zero_testBit, Bool.false_or]
  by_cases h : w.OneCount.get i > w.Count / 2
  · simp only [h, decide_True, List.any_eq_true, Bool.and_eq_true, decide_eq_true_eq]
    exact ⟨i, List.mem_finRange i, rfl, h⟩
  · simp only [h, decide_False, List.any_eq_false, Bool.and_eq_true, decide_eq_true_eq, not_and]
    intro j _ hj
    have : j = i := Fin.ext hj
    subst this
    exact h

theorem DecodeWord_testBit_ge (w : WordValues) (t : Nat) {k : Nat} (hk : 64 ≤ k) :
    (w.DecodeWord t).1.testBit k = false := by
  unfold WordValues.DecodeWord
  simp only []
  rw [foldl_decodeBit_testBit]
  simp only [Nat.zero_testBit, Bool.false_or, List.any_eq_false, Bool.and_eq_true,
    decide_eq_true_eq, not_and]
  intro j _ hj
  have := j.isLt
  omega

theorem DecodeWord_lt (w : WordValues) (t : Nat) : (w.DecodeWord t).1 < 2 ^ 64 := by
  apply Nat.lt_pow_two_of_testBit
  intro k hk
  exact DecodeWord_testBit_ge w t hk

theorem DecodeWord_snd (w : WordValues) (t : Nat) :
    (w.DecodeWord t).2 = uint64 (t + ∑ i : Fin 64, disagreement w i) := by
  have h1 := foldl_decodeBit_snd w (List.finRange 64) (0, t)
  have h2 : (w.DecodeWord t).2 < 2 ^ 64 := by
    unfold WordValues.DecodeWord
    simp only []
    rw [show List.finRange 64 = (0 : Fin 64) :: (List.finRange 64).tail from by rfl,
      List.foldl_cons]
    exact foldl_decodeBit_snd_lt _ _ _ _ (decodeBit_snd_lt _ _ _ _)
  rw [Fin.sum_univ_def]
  have h3 : (((w.DecodeWord t).2 : Nat) : Int)
      ≡ t + ((List.finRange 64).map (disagreement w)).sum [ZMOD 2 ^ 64] := h1
  unfold Int.ModEq at h3
  unfold uint64
  omega

/-! ## Claims about the bit voter and the padding arithmetic -/

/-- C8: the decision rule of `DecodeWord`.  For every accumulator state and every
initial value of the disagreement total, bit `i` of the returned word is 1 exactly
when `OneCount[i] > Count / 2` (integer division), no bit above position 63 is
set, a bit whose one-counter is exactly half of `Count` is decided 0, and the
total grows, in `uint64` arithmetic, by `Count - OneCount[i]` for every bit decided
1 and by `OneCount[i]` for every bit decided 0. -/
theorem DecodeWord_decision_rule (w : WordValues) (totalBitErrors : Nat) :
    (∀ i : Fin 64, (w.DecodeWord totalBitErrors).1.testBit i.val
        = decide (w.OneCount.get i > w.Count / 2)) ∧
    (w.DecodeWord totalBitErrors).1 < 2 ^ 64 ∧
    (∀ i : Fin 64, 2 * w.OneCount.get i = w.Count →
        (w.DecodeWord totalBitErrors).1.testBit i.val = false) ∧
    (w.DecodeWord totalBitErrors).2
      = uint64 (totalBitErrors + ∑ i : Fin 64,
          (if w.OneCount.get i > w.Count / 2 then (w.Count : Int) - w.OneCount.get i
           else (w.OneCount.get i : Int))) := by
  refine ⟨DecodeWord_testBit w totalBitErrors, DecodeWord_lt w totalBitErrors, ?_, ?_⟩
  · intro i hi
    rw [DecodeWord_testBit]
    have : ¬ w.OneCount.get i > w.Count / 2 := by omega
    simp [this]
  · exact DecodeWord_snd w totalBitErrors

/-- C10 (as stated, refuted): the length `2 ^ 64 - 1` fits in one 64-bit word, but
the addition in `paddedLength` wraps around: the result is 0, which is below the
length and is not `ceil(L / 8) * 8`. -/
theorem paddedLength_wraps :
    (2 ^ 64 - 1 : Nat) < 2 ^ 64 ∧ paddedLength (2 ^ 64 - 1) = 0 ∧
      ¬ (2 ^ 64 - 1 ≤ paddedLength (2 ^ 64 - 1)) ∧
      paddedLength (2 ^ 64 - 1) ≠ (2 ^ 64 - 1 + 7) / 8 * 8 := by
  have h : paddedLength (2 ^ 64 - 1) = 0 := by
    unfold paddedLength WordBytes uint64
    norm_num
  rw [h]
  norm_num

/-- C10 (amended): for every length `L ≤ 2 ^ 64 - 8`, `paddedLength L` equals
`ceil(L / 8) * 8`: it is a multiple of 8, it is at least `L`, and it exceeds `L` by
fewer than 8. -/
theorem paddedLength_spec (L : Nat) (hL : L ≤ 2 ^ 64 - 8) :
    paddedLength L = (L + 7) / 8 * 8 ∧ paddedLength L % 8 = 0 ∧
      L ≤ paddedLength L ∧ paddedLength L < L + 8 := by
  unfold paddedLength WordBytes uint64
  split <;> omega

/-- Witness for C10 (amended), at the length 2 of the payload "hi". -/
theorem paddedLength_spec_witness :
    (2 : Nat) ≤ 2 ^ 64 - 8 ∧
      (paddedLength 2 = (2 + 7) / 8 * 8 ∧ paddedLength 2 % 8 = 0 ∧
        2 ≤ paddedLength 2 ∧ paddedLength 2 < 2 + 8) :=
  ⟨by decide, paddedLength_spec 2 (by decide)⟩

theorem shl8_or (a : Nat) (b : Byte) : a <<< 8 ||| b.val = a * 256 + b.val := by
  have hb : b.val < 2 ^ 8 := b.isLt
  rw [Nat.shiftLeft_eq, Nat.mul_comm, ← Nat.mul_add_lt_is_or hb]

theorem getUint64_eq (b0 b1 b2 b3 b4 b5 b6 b7 : Byte) (tl : List Byte) :
    getUint64 (b0 :: b1 :: b2 :: b3 :: b4 :: b5 :: b6 :: b7 :: tl)
      = ((((((b0.val * 256 + b1.val) * 256 + b2.val) * 256 + b3.val) * 256 + b4.val) * 256
          + b5.val) * 256 + b6.val) * 256 + b7.val := by
  unfold getUint64
  simp only [List.take, List.foldl, shl8_or]
  omega

theorem toByte_val (v : Nat) : (toByte v).val = v % 256 := rfl

theorem getUint64_putUint64 {v : Nat} (hv : v < 2 ^ 64) : getUint64 (putUint64 v) = v := by
  unfold putUint64
  rw [getUint64_eq]
  simp only [toByte_val, Nat.shiftRight_eq_div_pow]
  omega
theorem uint64_uint64_add (x y : Int) : uint64 ((uint64 x : Nat) + y) = uint64 (x + y) := by
  unfold uint64; omega
theorem putUint64_length (v : Nat) : (putUint64 v).length = 8 := rfl
theorem putUint64_getUint64 (b0 b1 b2 b3 b4 b5 b6 b7 : Byte) :
    putUint64 (getUint64 [b0, b1, b2, b3, b4, b5, b6, b7]) = [b0, b1, b2, b3, b4, b5, b6, b7] := by
  rw [getUint64_eq]
  unfold putUint64
  have h0 := b0.isLt; have h1 := b1.isLt; have h2 := b2.isLt; have h3 := b3.isLt
  have h4 := b4.isLt; have h5 := b5.isLt; have h6 := b6.isLt; have h7 := b7.isLt
  simp only [Nat.shiftRight_eq_div_pow, List.cons.injEq, and_true]
  refine ⟨?_, ?_, ?_, ?_, ?_, ?_, ?_, ?_⟩ <;> (apply Fin.ext; rw [toByte_val]; omega)

theorem zero_Count : WordValues.zero.Count = 0 := rfl

theorem zero_OneCount (i : Fin 64) : WordValues.zero.OneCount.get i = 0 :=
  Mathlib.Vector.get_replicate 0 i

/-- The accumulator after a list of observations. -/
theorem foldl_AddWord_Count (ws : List Nat) :
    ∀ (w : WordValues), w.Count < 2 ^ 64 →
      (ws.foldl WordValues.AddWord w).Count = uint64 (w.Count + ws.length) := by
  induction ws with
  | nil => intro w hw; simp [uint64_of_lt hw]
  | cons a ws ih =>
    intro w _
    rw [List.foldl_cons, ih _ (by rw [AddWord_Count]; exact uint64_lt _), AddWord_Count]
    unfold uint64
    simp only [List.length_cons]
    omega

theorem foldl_AddWord_OneCount (i : Fin 64) (ws : List Nat) :
    ∀ (w : WordValues), w.OneCount.get i < 2 ^ 64 →
      (ws.foldl WordValues.AddWord w).OneCount.get i
        = uint64 (w.OneCount.get i + ws.countP (fun x => x.testBit i.val)) := by
  induction ws with
  | nil => intro w hw; simp [uint64_of_lt hw]
  | cons a ws ih =>
    intro w _
    rw [List.foldl_cons, ih _ (by rw [AddWord_OneCount]; exact uint64_lt _), AddWord_OneCount,
      List.countP_cons]
    unfold uint64
    cases a.testBit i.val <;> simp <;> omega

/-- A strict majority of equal observations decides the word. -/
theorem DecodeWord_majority (ws : List Nat) (t : Nat) (ht : t < 2 ^ 64)
    (hN : ws.length < 2 ^ 64) (hmaj : ws.length / 2 < ws.countP (fun x => decide (x = t)))
    (e : Nat) : ((ws.foldl WordValues.AddWord WordValues.zero).DecodeWord e).1 = t := by
  apply Nat.eq_of_testBit_eq
  intro k
  by_cases hk : k < 64
  · have h := DecodeWord_testBit (ws.foldl WordValues.AddWord WordValues.zero) e ⟨k, hk⟩
    simp only [] at h
    rw [h, foldl_AddWord_Count ws _ (by rw [zero_Count]; decide),
      foldl_AddWord_OneCount ⟨k, hk⟩ ws _ (by rw [zero_OneCount]; decide),
      zero_Count, zero_OneCount]
    have hle : ws.countP (fun x => x.testBit k) ≤ ws.length := List.countP_le_length _
    have h1 : uint64 ((0 : Nat) + (ws.length : Nat)) = ws.length := by
      unfold uint64; omega
    have h2 : uint64 ((0 : Nat) + (ws.countP (fun x => x.testBit k) : Nat))
        = ws.countP (fun x => x.testBit k) := by
      unfold uint64; omega
    simp only [] at h1 h2 ⊢
    rw [h1, h2]
    cases htk : t.testBit k with
    | true =>
      have hmono : ws.countP (fun x => decide (x = t)) ≤ ws.countP (fun x => x.testBit k) := by
        apply List.countP_mono_left
        intro x _ hx
        have : x = t := by simpa using hx
        rw [this, htk]
      simp only [decide_eq_true_eq]
      omega
    | false =>
      have hsplit := List.length_eq_countP_add_countP (fun x : Nat => x.testBit k) ws
      have hmono : ws.countP (fun x => decide (x = t))
          ≤ ws.countP (fun a => decide ¬ (a.testBit k) = true) := by
        apply List.countP_mono_left
        intro x _ hx
        have : x = t := by simpa using hx
        rw [this, htk]
        simp
      simp only [decide_eq_false_iff_not]
      omega
  · have hk' : 64 ≤ k := by omega
    rw [DecodeWord_testBit_ge _ _ hk']
    symm
    apply Nat.testBit_lt_two_pow
    exact lt_of_lt_of_le ht (Nat.pow_le_pow_right (by decide) hk')

theorem readFull_eq (s : List Byte) (p n : Nat) :
    ({ s := s, i := (p : Int) } : Reader).readFull n
      = ((s.drop p).take n, { s := s, i := ((p + min n (s.length - p) : Nat) : Int) }) := by
  unfold Reader.readFull
  simp only [Int.toNat_ofNat, List.length_take, List.length_drop]
  push_cast
  rfl

theorem binaryRead_eq (s : List Byte) (p : Nat) :
    binaryRead { s := s, i := (p : Int) }
      = (readAt s p, { s := s, i := ((p + min 8 (s.length - p) : Nat) : Int) }) := by
  unfold binaryRead readAt WordBytes
  rw [readFull_eq]

theorem readAt_append_putUint64 (pre rest : List Byte) {v : Nat} (hv : v < 2 ^ 64) :
    readAt (pre ++ (putUint64 v ++ rest)) pre.length = v := by
  unfold readAt
  rw [List.drop_left, List.take_left' (putUint64_length v), putUint64_length]
  simp [getUint64_putUint64 hv]

theorem headerOf_length (ws : List Nat) : (headerOf ws).length = 8 * ws.length := by
  unfold headerOf
  induction ws with
  | nil => rfl
  | cons a ws ih =>
    rw [List.flatMap_cons, List.length_append, ih, putUint64_length, List.length_cons]
    omega

/-- The header loop of `decode` on a stream that holds the words `ws` at the
reading position. -/
theorem readLength_headerOf (rest : List Byte) (ws : List Nat) :
    ∀ (s pre : List Byte) (w : WordValues), (∀ v ∈ ws, v < 2 ^ 64) →
      s = pre ++ (headerOf ws ++ rest) →
      readLength ws.length { s := s, i := (pre.length : Int) } w
        = (ws.foldl WordValues.AddWord w,
            { s := s, i := ((pre.length + 8 * ws.length : Nat) : Int) }) := by
  induction ws with
  | nil => intro s pre w _ _; simp [readLength]
  | cons a ws ih =>
    intro s pre w hws hs
    have ha : a < 2 ^ 64 := hws a (List.mem_cons_self _ _)
    have hs1 : s = pre ++ (putUint64 a ++ (headerOf ws ++ rest)) := by
      rw [hs]; unfold headerOf; rw [List.flatMap_cons, List.append_assoc]
    have hlen : 8 ≤ s.length - pre.length := by
      rw [hs1]; simp [putUint64_length]
    have hs2 : s = (pre ++ putUint64 a) ++ (headerOf ws ++ rest) := by
      rw [hs1, List.append_assoc]
    have hrd : readAt s pre.length = a := by
      rw [hs1]; exact readAt_append_putUint64 pre _ ha
    simp only [List.length_cons, readLength]
    rw [binaryRead_eq, hrd]
    simp only []
    have hmin : pre.length + min 8 (s.length - pre.length) = (pre ++ putUint64 a).length := by
      rw [List.length_append, putUint64_length]; omega
    rw [hmin, ih s (pre ++ putUint64 a) (w.AddWord a)
      (fun v hv => hws v (List.mem_cons_of_mem _ hv)) hs2, List.foldl_cons]
    have : (pre ++ putUint64 a).length + 8 * ws.length = pre.length + 8 * (ws.length + 1) := by
      rw [List.length_append, putUint64_length]; omega
    rw [this]

theorem decodeLength_headerOf (ws : List Nat) (rest : List Byte)
    (hlen : ws.length = LengthRedundancy) (hws : ∀ v ∈ ws, v < 2 ^ 64) :
    decodeLength (headerOf ws ++ rest)
      = (((ws.foldl WordValues.AddWord WordValues.zero).DecodeWord 0).1,
         ((ws.foldl WordValues.AddWord WordValues.zero).DecodeWord 0).2,
         { s := headerOf ws ++ rest, i := ((8 * LengthRedundancy : Nat) : Int) }) := by
  unfold decodeLength
  have h := readLength_headerOf rest ws (headerOf ws ++ rest) [] WordValues.zero hws rfl
  simp only [List.length_nil, Nat.cast_zero, Nat.zero_add] at h
  rw [hlen] at h
  rw [h]

/-- C3: header tolerance.  If the header holds `LengthRedundancy = 10000` words of
which at most `10000 / 2 - 1 = 4999` differ from the length `L` (whatever bits were
flipped in them) and the others equal `L`, then 10000 calls of `AddWord` followed
by `DecodeWord` return exactly `L`, and so does the header loop of `decode` reading
those words from the front of its input. -/
theorem header_tolerance (L : Nat) (hL : L < 2 ^ 64) (ws : List Nat) (rest : List Byte)
    (hlen : ws.length = LengthRedundancy) (hws : ∀ v ∈ ws, v < 2 ^ 64)
    (hbad : ws.countP (fun v => decide (v ≠ L)) ≤ LengthRedundancy / 2 - 1) :
    ((ws.foldl WordValues.AddWord WordValues.zero).DecodeWord 0).1 = L ∧
      (decodeLength (headerOf ws ++ rest)).1 = L := by
  have hsplit := List.length_eq_countP_add_countP (fun v : Nat => decide (v = L)) ws
  have hb : ws.countP (fun a => decide ¬ (decide (a = L)) = true)
      = ws.countP (fun v => decide (v ≠ L)) := by
    congr 1
    funext v
    simp
  have hmaj : ws.length / 2 < ws.countP (fun x => decide (x = L)) := by
    rw [hb] at hsplit
    unfold LengthRedundancy at hlen hbad
    omega
  have hN : ws.length < 2 ^ 64 := by
    rw [hlen]; unfold LengthRedundancy; norm_num
  have h := DecodeWord_majority ws L hL hN hmaj 0
  refine ⟨h, ?_⟩
  rw [decodeLength_headerOf ws rest hlen hws]
  exact h

/-- Witness for C3: 4999 header words with every bit set and 5001 words holding
the length 2 still decode to the length 2. -/
theorem header_tolerance_witness :
    (List.replicate 4999 (2 ^ 64 - 1) ++ List.replicate 5001 2).countP
        (fun v => decide (v ≠ 2)) ≤ LengthRedundancy / 2 - 1 ∧
      (((List.replicate 4999 (2 ^ 64 - 1) ++ List.replicate 5001 2).foldl
          WordValues.AddWord WordValues.zero).DecodeWord 0).1 = 2 ∧
      (decodeLength (headerOf (List.replicate 4999 (2 ^ 64 - 1) ++ List.replicate 5001 2)
        ++ [104, 105])).1 = 2 :=
  ⟨by rw [List.countP_append, List.countP_replicate, List.countP_replicate]; decide,
    header_tolerance 2 (by norm_num)
      (List.replicate 4999 (2 ^ 64 - 1) ++ List.replicate 5001 2)
      [104, 105]
      (by rw [List.length_append, List.length_replicate, List.length_replicate]; rfl)
      (by
        intro v hv
        rcases List.mem_append.1 hv with h | h
        · rw [List.eq_of_mem_replicate h]; norm_num
        · rw [List.eq_of_mem_replicate h]; norm_num)
      (by rw [List.countP_append, List.countP_replicate, List.countP_replicate]; decide)⟩

theorem feed_Count (ws : List Nat) (hN : ws.length < 2 ^ 64) :
    (ws.foldl WordValues.AddWord WordValues.zero).Count = ws.length := by
  rw [foldl_AddWord_Count ws _ (by rw [zero_Count]; decide), zero_Count]
  unfold uint64; omega

theorem feed_OneCount (ws : List Nat) (hN : ws.length < 2 ^ 64) (i : Fin 64) :
    (ws.foldl WordValues.AddWord WordValues.zero).OneCount.get i
      = ws.countP (fun x => x.testBit i.val) := by
  have hle : ws.countP (fun x => x.testBit i.val) ≤ ws.length := List.countP_le_length _
  rw [foldl_AddWord_OneCount i ws _ (by rw [zero_OneCount]; decide), zero_OneCount]
  unfold uint64; omega

/-- The observations that differ from `t` in bit `i`. -/
theorem countP_xor_testBit (ws : List Nat) (t : Nat) (i : Nat) :
    ws.countP (fun x => (x ^^^ t).testBit i)
      = if t.testBit i then ws.length - ws.countP (fun x => x.testBit i)
        else ws.countP (fun x => x.testBit i) := by
  cases ht : t.testBit i with
  | true =>
    have hsplit := List.length_eq_countP_add_countP (fun x : Nat => x.testBit i) ws
    have : ws.countP (fun x => (x ^^^ t).testBit i)
        = ws.countP (fun a => decide ¬ (a.testBit i) = true) := by
      congr 1
      funext x
      rw [Nat.testBit_xor, ht]
      cases x.testBit i <;> rfl
    simp only [if_true]
    omega
  | false =>
    have : ws.countP (fun x => (x ^^^ t).testBit i) = ws.countP (fun x => x.testBit i) := by
      congr 1
      funext x
      rw [Nat.testBit_xor, ht]
      cases x.testBit i <;> rfl
    simpa using this

theorem sum_countP_testBit (ws : List Nat) :
    ∑ i : Fin 64, ws.countP (fun x => x.testBit i.val) = (ws.map popcount64).sum := by
  induction ws with
  | nil => simp
  | cons a ws ih =>
    simp only [List.countP_cons, List.map_cons, List.sum_cons]
    have hp : ∑ i : Fin 64, (if a.testBit i.val = true then 1 else 0) = popcount64 a := by
      unfold popcount64
      apply Finset.sum_congr rfl
      intro i _
      cases a.testBit i.val <;> rfl
    rw [Finset.sum_add_distrib, ih, hp]
    exact Nat.add_comm _ _

/-- What `DecodeWord` adds for one bit position is at most the number of
observations that differ from any fixed word in that position. -/
theorem disagreement_feed_le (ws : List Nat) (t : Nat) (hN : ws.length < 2 ^ 64) (i : Fin 64) :
    ∃ d : Nat, disagreement (ws.foldl WordValues.AddWord WordValues.zero) i = (d : Int) ∧
      d ≤ ws.countP (fun x => (x ^^^ t).testBit i.val) := by
  have hle : ws.countP (fun x => x.testBit i.val) ≤ ws.length := List.countP_le_length _
  unfold disagreement
  rw [feed_Count ws hN, feed_OneCount ws hN, countP_xor_testBit]
  by_cases h : ws.countP (fun x => x.testBit i.val) > ws.length / 2
  · refine ⟨ws.length - ws.countP (fun x => x.testBit i.val), ?_, ?_⟩
    · rw [if_pos h]; omega
    · split <;> omega
  · refine ⟨ws.countP (fun x => x.testBit i.val), ?_, ?_⟩
    · rw [if_neg h]
    · split <;> omega

theorem sum_disagreement_feed_le (ws : List Nat) (t : Nat) (hN : ws.length < 2 ^ 64) :
    ∃ a : Nat, ∑ i : Fin 64, disagreement (ws.foldl WordValues.AddWord WordValues.zero) i
        = (a : Int) ∧
      a ≤ (ws.map (fun w => popcount64 (w ^^^ t))).sum := by
  choose d hd1 hd2 using disagreement_feed_le ws t hN
  refine ⟨∑ i : Fin 64, d i, ?_, ?_⟩
  · push_cast
    exact Finset.sum_congr rfl (fun i _ => hd1 i)
  · have h1 : ∑ i : Fin 64, d i
        ≤ ∑ i : Fin 64, ws.countP (fun x => (x ^^^ t).testBit i.val) :=
      Finset.sum_le_sum (fun i _ => hd2 i)
    have h2 : ∑ i : Fin 64, ws.countP (fun x => (x ^^^ t).testBit i.val)
        = ((ws.map (fun w => w ^^^ t)).map popcount64).sum := by
      rw [← sum_countP_testBit]
      apply Finset.sum_congr rfl
      intro i _
      rw [List.countP_map]
      rfl
    rw [h2, List.map_map] at h1
    exact h1

/-- C9: the disagreement count is a lower bound on the bit errors.  For every list
`ws` of fewer than `2 ^ 64` observations fed to a fresh accumulator and every
candidate ground-truth word `t`, `DecodeWord` moves the total from any value `e` to
`e` plus a fixed amount (in `uint64` arithmetic), and that amount is at most the
number of (observation, bit position) pairs in which an observation differs from
`t`, the sum over `w` in `ws` of `popcount (w xor t)`. -/
theorem disagreement_lower_bound (ws : List Nat) (t : Nat) (hN : ws.length < 2 ^ 64) :
    (∀ e : Nat, ((ws.foldl WordValues.AddWord WordValues.zero).DecodeWord e).2
        = uint64 (e + ((ws.foldl WordValues.AddWord WordValues.zero).DecodeWord 0).2)) ∧
      ((ws.foldl WordValues.AddWord WordValues.zero).DecodeWord 0).2
        ≤ (ws.map (fun w => popcount64 (w ^^^ t))).sum := by
  obtain ⟨a, ha1, ha2⟩ := sum_disagreement_feed_le ws t hN
  constructor
  · intro e
    rw [DecodeWord_snd, DecodeWord_snd, ha1]
    unfold uint64
    omega
  · rw [DecodeWord_snd, ha1]
    have : uint64 (((0 : Nat) : Int) + (a : Int)) ≤ a := by
      unfold uint64; omega
    exact le_trans this ha2

/-- Witness for C9: three observations, one of them with a flipped bit. -/
theorem disagreement_lower_bound_witness :
    (∀ e : Nat, (([5, 5, 4].foldl WordValues.AddWord WordValues.zero).DecodeWord e).2
        = uint64 (e + (([5, 5, 4].foldl WordValues.AddWord WordValues.zero).DecodeWord 0).2)) ∧
      (([5, 5, 4].foldl WordValues.AddWord WordValues.zero).DecodeWord 0).2
        ≤ (([5, 5, 4] : List Nat).map (fun w => popcount64 (w ^^^ 5))).sum :=
  disagreement_lower_bound [5, 5, 4] 5 (by decide)

theorem int64_of_lt {x : Int} (h0 : 0 ≤ x) (h1 : x < 2 ^ 63) : int64 x = x := by
  unfold int64; omega

theorem lt_scanCount_iff {B P c : Nat} (hP : 0 < P) : c < scanCount B P ↔ c * P + 8 ≤ B := by
  unfold scanCount
  split
  · omega
  · rename_i h
    rw [Nat.lt_succ_iff, Nat.le_div_iff_mul_le hP]
    omega

theorem Seek_cur (s : List Byte) (q off : Int) (h0 : 0 ≤ q + off) (h1 : q + off < 2 ^ 63) :
    ({ s := s, i := q } : Reader).Seek off 1
      = some (q + off, { s := s, i := q + off }) := by
  unfold Reader.Seek
  simp only [int64_of_lt h0 h1]
  rw [if_neg (by omega)]

theorem Seek_set (f : Reader) (off : Int) (h0 : 0 ≤ off) :
    f.Seek off 0 = some (off, { s := f.s, i := off }) := by
  unfold Reader.Seek
  simp only []
  rw [if_neg (by omega)]

/-- The scan loop counts the offsets `i * P` at which 8 bytes can be read. -/
theorem scanLoop_spec (s : List Byte) (P : Nat) (hP : 8 ≤ P) (hsz : s.length + P < 2 ^ 63) :
    ∀ (fuel c : Nat), c ≤ scanCount s.length P → scanCount s.length P - c < fuel →
      ∃ q : Int, scanLoop ((P : Int) - 8) fuel { s := s, i := ((c * P : Nat) : Int) } (c : Int)
        = Result.done ((scanCount s.length P : Int), { s := s, i := q }) := by
  intro fuel
  induction fuel with
  | zero => intro c _ h; omega
  | succ fuel ih =>
    intro c hc hfuel
    unfold scanLoop
    rw [readFull_eq]
    simp only [List.length_take, List.length_drop, WordBytes]
    by_cases hlt : c < scanCount s.length P
    · have hfull := (lt_scanCount_iff (by omega : 0 < P)).1 hlt
      have hcP : c ≤ c * P := Nat.le_mul_of_pos_right c (by omega)
      have hmin : min 8 (s.length - c * P) = 8 := by omega
      rw [hmin]
      simp only [ne_eq, not_true_eq_false, if_false]
      rw [Seek_cur s _ _ (by push_cast; omega) (by push_cast; omega)]
      simp only []
      have hi : int64 ((c : Int) + 1) = ((c + 1 : Nat) : Int) := by
        rw [int64_of_lt (by omega) (by omega)]; push_cast; rfl
      have hpos : ((c * P + 8 : Nat) : Int) + ((P : Int) - 8) = (((c + 1) * P : Nat) : Int) := by
        push_cast; ring
      rw [hi, hpos]
      exact ih (c + 1) hlt (by omega)
    · have heq : c = scanCount s.length P := by omega
      have hshort : ¬ (c * P + 8 ≤ s.length) := fun h =>
        hlt ((lt_scanCount_iff (by omega : 0 < P)).2 h)
      have hmin : min 8 (s.length - c * P) ≠ 8 := by omega
      rw [if_pos hmin, ← heq]
      exact ⟨_, rfl⟩

/-- C4 (the code departs from the claim): with `PaddedLength = 16`, a body of three
full copies of a 16-byte payload followed by the first 8 bytes of a fourth copy
(56 bytes) is scanned as 4 copies by the scan loop of `decodeReadSeeker`, not as
`floor(56 / 16) = 3`. -/
theorem scanLoop_counts_partial_copy :
    scanLoop (int64 (int64 (paddedLength 16) - WordBytes)) 10
        { s := [1, 2, 3, 4, 5, 6, 7, 8, 9, 10, 11, 12, 13, 14, 15, 16,
                1, 2, 3, 4, 5, 6, 7, 8, 9, 10, 11, 12, 13, 14, 15, 16,
                1, 2, 3, 4, 5, 6, 7, 8, 9, 10, 11, 12, 13, 14, 15, 16,
                1, 2, 3, 4, 5, 6, 7, 8], i := 0 } 0
      = Result.done (4,
        { s := [1, 2, 3, 4, 5, 6, 7, 8, 9, 10, 11, 12, 13, 14, 15, 16,
                1, 2, 3, 4, 5, 6, 7, 8, 9, 10, 11, 12, 13, 14, 15, 16,
                1, 2, 3, 4, 5, 6, 7, 8, 9, 10, 11, 12, 13, 14, 15, 16,
                1, 2, 3, 4, 5, 6, 7, 8], i := 64 }) ∧
      (56 : Nat) / paddedLength 16 = 3 := by
  decide

theorem Write_full (k : Sink) (b : List Byte) (h : b.length ≤ k.room) :
    k.Write b = (b.length, { written := k.written ++ b, room := k.room - b.length }) := by
  unfold Sink.Write
  simp only [Nat.min_eq_left h, List.take_length]

theorem Write_short (k : Sink) (b : List Byte) (h : k.room < b.length) :
    k.Write b = (k.room, { written := k.written ++ b.take k.room, room := 0 }) := by
  unfold Sink.Write
  simp only [Nat.min_eq_right (Nat.le_of_lt h), Nat.sub_self]

theorem Write_room_le (k : Sink) (b : List Byte) : (k.Write b).2.room ≤ k.room := by
  unfold Sink.Write
  simp only []
  omega

theorem writeHeader_room_le (L : Nat) : ∀ (n : Nat) (k : Sink),
    (writeHeader L n k).room ≤ k.room := by
  intro n
  induction n with
  | zero => intro k; exact Nat.le_refl _
  | succ n ih =>
    intro k
    unfold writeHeader
    exact Nat.le_trans (ih _) (Write_room_le k _)

theorem writeHeader_full (L : Nat) : ∀ (n : Nat) (k : Sink), 8 * n ≤ k.room →
    writeHeader L n k
      = { written := k.written ++ headerOf (List.replicate n L), room := k.room - 8 * n } := by
  intro n
  induction n with
  | zero => intro k _; simp [writeHeader, headerOf]
  | succ n ih =>
    intro k h
    unfold writeHeader
    rw [Write_full k _ (by rw [putUint64_length]; omega)]
    simp only [putUint64_length]
    rw [ih _ (by simp only []; omega)]
    simp only [headerOf, List.replicate_succ, List.flatMap_cons, List.append_assoc]
    congr 1
    omega

/-- The copy loop on a medium that is exhausted before the loop bound: the whole
copies that fit are written, then the leading fragment of one more. -/
theorem writeCopies_exhausted (data : List Byte) (hdata : data ≠ []) :
    ∀ (fuel i : Nat) (k : Sink), k.room / data.length < fuel →
      writeCopies data fuel i k
        = (if i + k.room / data.length < 3 then Exit.exit 1 else Exit.exit 0,
           { written := k.written ++ (List.replicate (k.room / data.length) data).flatten
               ++ data.take (k.room % data.length), room := 0 }) := by
  have hpos : 0 < data.length := List.length_pos.2 hdata
  intro fuel
  induction fuel with
  | zero => intro i k h; exact absurd h (Nat.not_lt_zero _)
  | succ fuel ih =>
    intro i k hfuel
    unfold writeCopies
    by_cases hfit : data.length ≤ k.room
    · rw [Write_full k data hfit]
      simp only [ne_eq, not_true_eq_false, if_false]
      have hdiv : k.room / data.length = (k.room - data.length) / data.length + 1 :=
        Nat.div_eq_sub_div hpos hfit
      have hmod : k.room % data.length = (k.room - data.length) % data.length :=
        Nat.mod_eq_sub_mod hfit
      rw [ih (i + 1) _ (by simp only []; omega)]
      simp only []
      rw [hdiv, hmod, List.replicate_succ, List.flatten_cons]
      simp only [List.append_assoc]
      rw [Nat.add_assoc i 1, Nat.add_comm 1]
    · have hlt : k.room < data.length := Nat.lt_of_not_le hfit
      rw [Write_short k data hlt]
      have hne : k.room ≠ data.length := Nat.ne_of_lt hlt
      simp only [ne_eq, hne, not_false_eq_true, if_true]
      rw [Nat.div_eq_of_lt hlt, Nat.mod_eq_of_lt hlt]
      simp only [Nat.add_zero, List.replicate_zero, List.flatten_nil, List.append_nil]
      split <;> rfl

/-- The copy loop on a medium with room for all `n` copies. -/
theorem writeCopies_returned (data : List Byte) :
    ∀ (n i : Nat) (k : Sink), n * data.length ≤ k.room →
      writeCopies data n i k
        = (Exit.returned,
           { written := k.written ++ (List.replicate n data).flatten,
             room := k.room - n * data.length }) := by
  intro n
  induction n with
  | zero => intro i k _; simp [writeCopies]
  | succ n ih =>
    intro i k h
    have h1 : data.length ≤ k.room := by
      rw [Nat.succ_mul] at h; omega
    unfold writeCopies
    rw [Write_full k data h1]
    simp only [ne_eq, not_true_eq_false, if_false]
    rw [ih (i + 1) _ (by simp only []; rw [Nat.succ_mul] at h; omega)]
    simp only [List.replicate_succ, List.flatten_cons, List.append_assoc]
    congr 2
    rw [Nat.succ_mul]
    omega

theorem padded_ne_nil (D : List Byte) (hD : D ≠ []) : padded D ≠ [] := by
  unfold padded
  simp only []
  split
  · simp [hD]
  · exact hD

/-- C5: the minimum-copy policy.  For every non-empty payload and every standard
output with fewer than `MaxNumCopies` bytes of room, `encode` writes what fits of
the header, then `c` whole padded copies, where `c` is the number of whole copies
that fit in the room the header left, then the fragment of one more copy that a
partial write leaves, and ends with `os.Exit(1)` when `c < 3` and with
`os.Exit(0)` when `c ≥ 3`. -/
theorem encode_minimum_copies (D : List Byte) (hD : D ≠ []) (k : Sink)
    (hroom : k.room < MaxNumCopies) :
    (encode MaxNumCopies D k).1
        = (if (writeHeader (uint64 D.length) LengthRedundancy k).room / (padded D).length < 3
           then Exit.exit 1 else Exit.exit 0) ∧
      (encode MaxNumCopies D k).2.written
        = (writeHeader (uint64 D.length) LengthRedundancy k).written
          ++ (List.replicate
                ((writeHeader (uint64 D.length) LengthRedundancy k).room / (padded D).length)
                (padded D)).flatten
          ++ (padded D).take
                ((writeHeader (uint64 D.length) LengthRedundancy k).room % (padded D).length) := by
  have hle := writeHeader_room_le (uint64 D.length) LengthRedundancy k
  have hdiv : (writeHeader (uint64 D.length) LengthRedundancy k).room / (padded D).length
      < MaxNumCopies :=
    lt_of_le_of_lt (Nat.div_le_self _ _) (lt_of_le_of_lt hle hroom)
  unfold encode
  simp only []
  rw [writeCopies_exhausted (padded D) (padded_ne_nil D hD) MaxNumCopies 0 _ hdiv]
  simp only [Nat.zero_add, and_self]

/-- Witness for C5: the payload "hi" on a medium with room for the header and two
copies. -/
theorem encode_minimum_copies_witness :
    (encode MaxNumCopies [104, 105] { written := [], room := 80016 }).1
        = (if (writeHeader (uint64 ([104, 105] : List Byte).length) LengthRedundancy
                { written := [], room := 80016 }).room / (padded [104, 105]).length < 3
           then Exit.exit 1 else Exit.exit 0) ∧
      (encode MaxNumCopies [104, 105] { written := [], room := 80016 }).2.written
        = (writeHeader (uint64 ([104, 105] : List Byte).length) LengthRedundancy
              { written := [], room := 80016 }).written
          ++ (List.replicate
                ((writeHeader (uint64 ([104, 105] : List Byte).length) LengthRedundancy
                    { written := [], room := 80016 }).room / (padded [104, 105]).length)
                (padded [104, 105])).flatten
          ++ (padded [104, 105]).take
                ((writeHeader (uint64 ([104, 105] : List Byte).length) LengthRedundancy
                    { written := [], room := 80016 }).room % (padded [104, 105]).length) :=
  encode_minimum_copies [104, 105] (by decide) { written := [], room := 80016 } (by decide)

theorem votes_length (s : List Byte) (P : Nat) : ∀ (n q : Nat), (votes s P q n).length = n := by
  intro n
  induction n with
  | zero => intro q; rfl
  | succ n ih => intro q; simp [votes, ih]

/-- The inner loop of `decodeReadSeeker` adds the readings `votes` to the
accumulator, as long as every reading but the last finds 8 bytes. -/
theorem voteLoop_spec (s : List Byte) (P : Nat) (hP : 8 ≤ P) :
    ∀ (n q : Nat) (w : WordValues), (∀ c, c + 1 < n → q + c * P + 8 ≤ s.length) →
      q + n * P < 2 ^ 63 →
      ∃ q' : Int, voteLoop ((P : Int) - 8) n { s := s, i := (q : Int) } w
        = some ((votes s P q n).foldl WordValues.AddWord w, { s := s, i := q' }) := by
  intro n
  induction n with
  | zero => intro q w _ _; exact ⟨_, rfl⟩
  | succ n ih =>
    intro q w hfull hsz
    rw [Nat.succ_mul] at hsz
    unfold voteLoop
    rw [binaryRead_eq]
    simp only []
    have hpos : (0 : Int) ≤ ((q + min 8 (s.length - q) : Nat) : Int) + ((P : Int) - 8) := by
      omega
    have hlt : ((q + min 8 (s.length - q) : Nat) : Int) + ((P : Int) - 8) < 2 ^ 63 := by
      have : 0 ≤ n * P := Nat.zero_le _
      omega
    rw [Seek_cur s _ _ hpos hlt]
    simp only [votes, List.foldl_cons]
    cases n with
    | zero => exact ⟨_, rfl⟩
    | succ n =>
      have h0 := hfull 0 (by omega)
      have hmin : min 8 (s.length - q) = 8 := by omega
      have hq : ((q + min 8 (s.length - q) : Nat) : Int) + ((P : Int) - 8) = ((q + P : Nat) : Int) := by
        rw [hmin]; push_cast; omega
      rw [hq]
      apply ih (q + P) (w.AddWord (readAt s q))
      · intro c hc
        have := hfull (c + 1) (by omega)
        rw [Nat.succ_mul] at this
        omega
      · omega

theorem putUint64_getUint64_take (l : List Byte) (h : 8 ≤ l.length) :
    putUint64 (getUint64 l) = l.take 8 := by
  rcases l with _ | ⟨b0, _ | ⟨b1, _ | ⟨b2, _ | ⟨b3, _ | ⟨b4, _ | ⟨b5, _ | ⟨b6, _ | ⟨b7, tl⟩⟩⟩⟩⟩⟩⟩⟩ <;>
    simp only [List.length_nil, List.length_cons] at h <;> try omega
  have h1 : getUint64 (b0 :: b1 :: b2 :: b3 :: b4 :: b5 :: b6 :: b7 :: tl)
      = getUint64 [b0, b1, b2, b3, b4, b5, b6, b7] := by
    rw [getUint64_eq, getUint64_eq]
  rw [h1, putUint64_getUint64]
  rfl

theorem getUint64_lt (l : List Byte) (h : 8 ≤ l.length) : getUint64 l < 2 ^ 64 := by
  rcases l with _ | ⟨b0, _ | ⟨b1, _ | ⟨b2, _ | ⟨b3, _ | ⟨b4, _ | ⟨b5, _ | ⟨b6, _ | ⟨b7, tl⟩⟩⟩⟩⟩⟩⟩⟩ <;>
    simp only [List.length_nil, List.length_cons] at h <;> try omega
  rw [getUint64_eq]
  have h0 := b0.isLt; have h1 := b1.isLt; have h2 := b2.isLt; have h3 := b3.isLt
  have h4 := b4.isLt; have h5 := b5.isLt; have h6 := b6.isLt; have h7 := b7.isLt
  omega

/-- One iteration of the word loop, when the vote for word `j` returns the word of
the padded payload `T`. -/
theorem decodeStep_spec (s T : List Byte) (L m N : Nat) (hm : 1 ≤ m)
    (hL1 : L ≤ 8 * m) (hL2 : 8 * m < L + 8) (hT : T.length = 8 * m)
    (hsz : (N + 1) * (8 * m) < 2 ^ 63)
    (hfull : ∀ j c, j < m → c + 1 < N → 8 * j + c * (8 * m) + 8 ≤ s.length)
    (hvote : ∀ j, j < m → ∀ e,
      (((votes s (8 * m) (8 * j) N).foldl WordValues.AddWord WordValues.zero).DecodeWord e).1
        = getUint64 (T.drop (8 * j)))
    (j : Nat) (hj : j < m) (st : DecodeState) (hs : st.f.s = s)
    (hout : st.out = T.take (min (8 * j) L)) :
    ∃ st', decodeStep L ((8 * m : Nat) : Int) 0 (((8 * m : Nat) : Int) - 8) (N : Int) (m : Int)
        (j : Int) st = Result.done st' ∧ st'.f.s = s ∧
      st'.out = T.take (min (8 * (j + 1)) L) := by
  have hNm : N * (8 * m) + 8 * m < 2 ^ 63 := by rw [Nat.succ_mul] at hsz; exact hsz
  have hseek : int64 ((0 : Int) + int64 ((j : Int) * (WordBytes : Nat))) = ((8 * j : Nat) : Int) := by
    unfold WordBytes
    have : 0 ≤ N * (8 * m) := Nat.zero_le _
    simp only [Nat.cast_ofNat]
    have h1 : int64 ((j : Int) * 8) = (j : Int) * 8 := int64_of_lt (by omega) (by omega)
    rw [h1, int64_of_lt (by omega) (by omega)]
    push_cast; ring
  obtain ⟨q', hq'⟩ := voteLoop_spec s (8 * m) (by omega) N (8 * j) WordValues.zero
    (fun c hc => hfull j c hj hc) (by omega)
  have hdrop : 8 ≤ (T.drop (8 * j)).length := by rw [List.length_drop, hT]; omega
  have hmin1 : min (8 * j) L = 8 * j := by omega
  rw [decodeStep]
  rw [hseek, Seek_set _ _ (by omega)]
  simp only [hs, Int.toNat_ofNat]
  rw [hq']
  simp only [hvote j hj]
  have hu : uint64 ((8 * m : Nat) : Int) = 8 * m := uint64_of_lt (by omega)
  rw [hu, putUint64_getUint64_take _ hdrop, hout, hmin1]
  by_cases hc : ((j : Int) ≠ (m : Int) - 1 ∨ L = 8 * m)
  · rw [if_pos hc]
    refine ⟨_, rfl, rfl, ?_⟩
    simp only []
    have hmin2 : min (8 * (j + 1)) L = 8 * j + 8 := by omega
    rw [hmin2, List.take_add]
  · rw [if_neg hc]
    have hjm : j + 1 = m := by omega
    have hLm : L ≠ 8 * m := fun h => hc (Or.inr h)
    have hbc : uint64 (((8 * m : Nat) : Int) - (L : Int)) = 8 * m - L := by
      unfold uint64; omega
    have hwc : uint64 (((WordBytes : Nat) : Int) - ((8 * m - L : Nat) : Int)) = 8 - (8 * m - L) := by
      unfold uint64 WordBytes; omega
    simp only [hbc, hwc]
    rw [if_neg (by unfold WordBytes; omega)]
    refine ⟨_, rfl, rfl, ?_⟩
    simp only []
    have hmin2 : min (8 * (j + 1)) L = 8 * j + (L - 8 * j) := by omega
    have hmin3 : min (8 - (8 * m - L)) 8 = L - 8 * j := by omega
    rw [hmin2, List.take_add, List.take_take, hmin3]

/-- The word loop, from index `j` on, when every vote returns the word of the padded
payload `T`: the output is completed to the first `L` bytes of `T`. -/
theorem wordLoop_spec (s T : List Byte) (L m N : Nat) (hm : 1 ≤ m)
    (hL1 : L ≤ 8 * m) (hL2 : 8 * m < L + 8) (hT : T.length = 8 * m)
    (hsz : (N + 1) * (8 * m) < 2 ^ 63)
    (hfull : ∀ j c, j < m → c + 1 < N → 8 * j + c * (8 * m) + 8 ≤ s.length)
    (hvote : ∀ j, j < m → ∀ e,
      (((votes s (8 * m) (8 * j) N).foldl WordValues.AddWord WordValues.zero).DecodeWord e).1
        = getUint64 (T.drop (8 * j))) :
    ∀ (n j : Nat) (st : DecodeState), j + n = m → st.f.s = s →
      st.out = T.take (min (8 * j) L) →
      ∃ st', wordLoop L ((8 * m : Nat) : Int) 0 (((8 * m : Nat) : Int) - 8) (N : Int) (m : Int)
          n (j : Int) st = Result.done st' ∧ st'.out = T.take L := by
  intro n
  induction n with
  | zero =>
    intro j st hj _ hout
    rw [wordLoop]
    refine ⟨st, rfl, ?_⟩
    have : min (8 * j) L = L := by omega
    rw [hout, this]
  | succ n ih =>
    intro j st hj hs hout
    obtain ⟨st1, h1, hs1, hout1⟩ :=
      decodeStep_spec s T L m N hm hL1 hL2 hT hsz hfull hvote j (by omega) st hs hout
    rw [wordLoop, h1]
    simp only []
    have hj1 : (j : Int) + 1 = ((j + 1 : Nat) : Int) := by push_cast; rfl
    rw [hj1]
    exact ih (j + 1) st1 (by omega) hs1 hout1

theorem Seek_cur_zero (s : List Byte) :
    ({ s := s, i := 0 } : Reader).Seek 0 1 = some (0, { s := s, i := 0 }) := rfl

theorem scanLoop_spec_zero (s : List Byte) (P : Nat) (hP : 8 ≤ P) (hsz : s.length + P < 2 ^ 63)
    (fuel : Nat) (hfuel : scanCount s.length P < fuel) :
    ∃ q : Int, scanLoop ((P : Int) - 8) fuel { s := s, i := 0 } 0
      = Result.done ((scanCount s.length P : Int), { s := s, i := q }) := by
  have h := scanLoop_spec s P hP hsz fuel 0 (Nat.zero_le _) (by omega)
  simpa using h

/-- The decoder proper, composed from its three stages: the initial seek, the scan
for copies and the word loop. -/
theorem decodeReadSeeker_eq (fuel : Nat) (f : Reader) (L e : Nat) (r : Int × Reader)
    (c : Int × Reader) (st : DecodeState) (pl sl mj : Int) (n : Nat)
    (hpl : int64 ((paddedLength L : Nat) : Int) = pl)
    (hsl : int64 (pl - ((WordBytes : Nat) : Int)) = sl)
    (hmj : Int.tdiv pl ((WordBytes : Nat) : Int) = mj)
    (hn : mj.toNat = n)
    (hseek : f.Seek 0 1 = some r)
    (hscan : scanLoop sl fuel r.2 0 = Result.done c)
    (hw : wordLoop L pl r.1 sl c.1 mj n 0
      { f := c.2, out := [], totalBitErrors := e } = Result.done st) :
    decodeReadSeeker fuel f L e = Result.done (st.out, st.totalBitErrors) := by
  rw [decodeReadSeeker, hpl, hsl, hmj, hseek]
  simp only []
  rw [hscan]
  simp only []
  rw [hn, hw]

/-- The decoder proper on a body in which, for every word position, the vote over
the copies found returns the word of the padded payload `T`: exactly the first `L`
bytes of `T` are written. -/
theorem decodeReadSeeker_spec (s T : List Byte) (L m : Nat) (hm : 1 ≤ m)
    (hPL : paddedLength L = 8 * m) (hL1 : L ≤ 8 * m) (hL2 : 8 * m < L + 8)
    (hT : T.length = 8 * m) (hsz1 : s.length + 8 * m < 2 ^ 63)
    (hsz : (scanCount s.length (8 * m) + 1) * (8 * m) < 2 ^ 63)
    (hfull : ∀ j c, j < m → c + 1 < scanCount s.length (8 * m) →
      8 * j + c * (8 * m) + 8 ≤ s.length)
    (hvote : ∀ j, j < m → ∀ e,
      (((votes s (8 * m) (8 * j) (scanCount s.length (8 * m))).foldl
          WordValues.AddWord WordValues.zero).DecodeWord e).1
        = getUint64 (T.drop (8 * j)))
    (fuel : Nat) (hfuel : scanCount s.length (8 * m) < fuel) (e : Nat) :
    ∃ e', decodeReadSeeker fuel { s := s, i := 0 } L e = Result.done (T.take L, e') := by
  obtain ⟨q, hq⟩ := scanLoop_spec_zero s (8 * m) (by omega) hsz1 fuel hfuel
  have hpl : int64 ((paddedLength L : Nat) : Int) = ((8 * m : Nat) : Int) := by
    rw [hPL]; exact int64_of_lt (by omega) (by omega)
  have hsl : int64 (((8 * m : Nat) : Int) - ((WordBytes : Nat) : Int)) = ((8 * m : Nat) : Int) - 8 := by
    unfold WordBytes
    simp only [Nat.cast_ofNat]
    exact int64_of_lt (by omega) (by omega)
  have hmaxj : Int.tdiv ((8 * m : Nat) : Int) ((WordBytes : Nat) : Int) = (m : Int) := by
    unfold WordBytes
    rw [Int.tdiv_eq_ediv (by omega) (by omega)]
    omega
  obtain ⟨st', hst', hout'⟩ := wordLoop_spec s T L m (scanCount s.length (8 * m)) hm hL1 hL2 hT
    hsz hfull hvote m 0 { f := { s := s, i := q }, out := [], totalBitErrors := e }
    (by omega) rfl (by simp)
  have h0 : ((0 : Nat) : Int) = 0 := rfl
  rw [h0] at hst'
  refine ⟨st'.totalBitErrors, ?_⟩
  rw [← hout']
  exact decodeReadSeeker_eq fuel { s := s, i := 0 } L e (0, { s := s, i := 0 })
    ((scanCount s.length (8 * m) : Int), { s := s, i := q }) st' _ _ _ m hpl hsl hmaxj
    (Int.toNat_ofNat m) (Seek_cur_zero s) hq hst'

/-! ## Bodies made of whole copies and a fragment -/

theorem getUint64_take (l : List Byte) : getUint64 (l.take 8) = getUint64 l := by
  unfold getUint64
  rw [List.take_take, Nat.min_self]

theorem paddedLength_eq (L : Nat) (hL : L ≤ 2 ^ 64 - 8) :
    paddedLength L = (L + 7) / 8 * 8 := by
  unfold paddedLength WordBytes uint64
  split <;> omega

theorem padded_eq (D : List Byte) (hD : D.length ≤ 2 ^ 64 - 8) :
    padded D = D ++ List.replicate ((D.length + 7) / 8 * 8 - D.length) 0 := by
  unfold padded
  simp only []
  rw [uint64_of_lt (by omega), paddedLength_eq _ hD]
  have h : uint64 ((((D.length + 7) / 8 * 8 : Nat) : Int) - (D.length : Int))
      = (D.length + 7) / 8 * 8 - D.length := by
    unfold uint64; omega
  rw [h]
  split
  · rfl
  · rename_i h0
    rw [not_not] at h0
    rw [h0, List.replicate_zero, List.append_nil]

theorem padded_length (D : List Byte) (hD : D.length ≤ 2 ^ 64 - 8) :
    (padded D).length = (D.length + 7) / 8 * 8 := by
  rw [padded_eq D hD, List.length_append, List.length_replicate]
  omega

theorem padded_take (D : List Byte) (hD : D.length ≤ 2 ^ 64 - 8) :
    (padded D).take D.length = D := by
  rw [padded_eq D hD, List.take_left]

theorem flatten_length_of (P : Nat) : ∀ (copies : List (List Byte)),
    (∀ c ∈ copies, c.length = P) → copies.flatten.length = copies.length * P := by
  intro copies
  induction copies with
  | nil => intro _; simp
  | cons c cs ih =>
    intro h
    rw [List.flatten_cons, List.length_append, ih (fun x hx => h x (List.mem_cons_of_mem _ hx)),
      h c (List.mem_cons_self _ _), List.length_cons, Nat.succ_mul]
    omega

theorem scanCount_body (n P r : Nat) (hP : 8 ≤ P) (hr : r < P) :
    scanCount (n * P + r) P = n + (if 8 ≤ r then 1 else 0) := by
  have key : ∀ c, c < scanCount (n * P + r) P ↔ c < n + (if 8 ≤ r then 1 else 0) := by
    intro c
    rw [lt_scanCount_iff (by omega)]
    rcases Nat.lt_trichotomy c n with h | h | h
    · have := Nat.mul_le_mul_right P (Nat.succ_le_of_lt h)
      rw [Nat.succ_mul] at this
      constructor <;> intro _ <;> omega
    · subst h
      split <;> constructor <;> intro _ <;> omega
    · have := Nat.mul_le_mul_right P (Nat.succ_le_of_lt h)
      rw [Nat.succ_mul] at this
      split <;> constructor <;> intro _ <;> omega
  rcases Nat.lt_trichotomy (scanCount (n * P + r) P) (n + (if 8 ≤ r then 1 else 0)) with h | h | h
  · exact absurd ((key _).2 h) (Nat.lt_irrefl _)
  · exact h
  · exact absurd ((key _).1 h) (Nat.lt_irrefl _)

theorem readAt_copy (pre c rest : List Byte) (j : Nat) (h : 8 * j + 8 ≤ c.length) :
    readAt (pre ++ (c ++ rest)) (pre.length + 8 * j) = getUint64 (c.drop (8 * j)) := by
  have h1 : ((pre ++ (c ++ rest)).drop (pre.length + 8 * j)).take 8 = (c.drop (8 * j)).take 8 := by
    rw [← List.drop_drop, List.drop_left, List.drop_append_of_le_length (by omega),
      List.take_append_of_le_length (by rw [List.length_drop]; omega)]
  unfold readAt
  rw [h1, getUint64_take]
  have h2 : ((c.drop (8 * j)).take 8).length = 8 := by
    rw [List.length_take, List.length_drop]; omega
  rw [if_pos h2]

theorem votes_countP (T : List Byte) (P j : Nat) (hj : 8 * j + 8 ≤ P) (tail : List Byte) :
    ∀ (copies : List (List Byte)) (pre : List Byte) (extra : Nat),
      (∀ c ∈ copies, c.length = P) →
      copies.countP (fun c => decide (c = T)) ≤
        (votes (pre ++ (copies.flatten ++ tail)) P (pre.length + 8 * j)
            (copies.length + extra)).countP
          (fun x => decide (x = getUint64 (T.drop (8 * j)))) := by
  intro copies
  induction copies with
  | nil => intro pre extra _; simp
  | cons c cs ih =>
    intro pre extra h
    have hc : c.length = P := h c (List.mem_cons_self _ _)
    have hn : (c :: cs).length + extra = (cs.length + extra) + 1 := by
      rw [List.length_cons]; omega
    have hs : pre ++ ((c :: cs).flatten ++ tail) = pre ++ (c ++ (cs.flatten ++ tail)) := by
      rw [List.flatten_cons, List.append_assoc]
    have hs2 : pre ++ (c ++ (cs.flatten ++ tail)) = (pre ++ c) ++ (cs.flatten ++ tail) := by
      rw [List.append_assoc]
    have hq : pre.length + 8 * j + P = (pre ++ c).length + 8 * j := by
      rw [List.length_append, hc]; omega
    have ih' := ih (pre ++ c) extra (fun x hx => h x (List.mem_cons_of_mem _ hx))
    rw [hn, votes, hs, readAt_copy pre c _ j (by omega), hs2, hq, List.countP_cons,
      List.countP_cons]
    by_cases hcT : c = T
    · subst hcT
      simp only [decide_True, if_true]
      omega
    · simp only [hcT, decide_False, Bool.false_eq_true, if_false, Nat.add_zero]
      exact le_trans ih' (Nat.le_add_right _ _)

/-- The decoder proper on a body of whole copies, each as long as the padded
payload `T`, followed by a fragment shorter than a copy: when the copies equal to
`T` are a strict majority of the copies the scan finds, the first `L` bytes of `T`
are written. -/
theorem decodeReadSeeker_body (T : List Byte) (L m : Nat) (hm : 1 ≤ m)
    (hPL : paddedLength L = 8 * m) (hL1 : L ≤ 8 * m) (hL2 : 8 * m < L + 8)
    (hT : T.length = 8 * m) (copies : List (List Byte)) (frag : List Byte)
    (hcopies : ∀ c ∈ copies, c.length = 8 * m) (hfrag : frag.length < 8 * m)
    (hsz : (copies.length + 2) * (8 * m) < 2 ^ 63)
    (hmaj : (copies.length + (if 8 ≤ frag.length then 1 else 0)) / 2
      < copies.countP (fun c => decide (c = T)))
    (fuel : Nat) (hfuel : copies.length + 1 < fuel) (e : Nat) :
    ∃ e', decodeReadSeeker fuel { s := copies.flatten ++ frag, i := 0 } L e
      = Result.done (T.take L, e') := by
  have hlen : (copies.flatten ++ frag).length = copies.length * (8 * m) + frag.length := by
    rw [List.length_append, flatten_length_of (8 * m) copies hcopies]
  have hN : scanCount (copies.flatten ++ frag).length (8 * m)
      = copies.length + (if 8 ≤ frag.length then 1 else 0) := by
    rw [hlen]; exact scanCount_body _ _ _ (by omega) hfrag
  have hN1 : scanCount (copies.flatten ++ frag).length (8 * m) ≤ copies.length + 1 := by
    rw [hN]; split <;> omega
  have hmul : (copies.length + 2) * (8 * m) = copies.length * (8 * m) + 2 * (8 * m) :=
    Nat.add_mul _ _ _
  have hmul1 := Nat.mul_le_mul_right (8 * m) (Nat.succ_le_succ hN1)
  refine decodeReadSeeker_spec (copies.flatten ++ frag) T L m hm hPL hL1 hL2 hT ?_ ?_ ?_ ?_
    fuel (by omega) e
  · rw [hlen]; omega
  · rw [hmul] at hsz
    have h2 : (copies.length + 1).succ * (8 * m) = copies.length * (8 * m) + 2 * (8 * m) :=
      Nat.add_mul _ 2 _
    rw [h2] at hmul1
    exact lt_of_le_of_lt hmul1 hsz
  · intro j c hj hc
    have hc' : c + 1 ≤ copies.length := by omega
    have h3 := Nat.mul_le_mul_right (8 * m) hc'
    rw [Nat.add_mul, Nat.one_mul] at h3
    rw [hlen]
    omega
  · intro j hj e1
    have hcount := votes_countP T (8 * m) j (by omega) frag copies []
      (if 8 ≤ frag.length then 1 else 0) hcopies
    rw [List.nil_append, List.length_nil, Nat.zero_add, ← hN] at hcount
    apply DecodeWord_majority _ _ (getUint64_lt _ (by rw [List.length_drop, hT]; omega))
    · rw [votes_length]
      have := Nat.le_mul_of_pos_right (copies.length + 2) (show 0 < 8 * m by omega)
      omega
    · rw [votes_length]
      rw [← hN] at hmaj
      exact lt_of_lt_of_le hmaj hcount

/-- The procedure `decode`, composed from the header loop and the decoder proper. -/
theorem decode_eq (fuel : Nat) (stdin : List Byte) (L e : Nat) (r : Reader) (n : Nat)
    (body : List Byte) (h : decodeLength stdin = (L, e, r)) (hn : r.i.toNat = n)
    (hb : r.s.drop n = body) :
    decode fuel stdin = decodeReadSeeker fuel { s := body, i := 0 } L e := by
  rw [decode, h]
  simp only []
  rw [hn, hb]

/-- The front of `decode`: over an intact header for the length `L`, the length
decided is `L` and the decoder proper is run on what follows the header. -/
theorem decode_headerOf (L : Nat) (hL : L < 2 ^ 64) (body : List Byte) (fuel : Nat) :
    ∃ e0, decode fuel (headerOf (List.replicate LengthRedundancy L) ++ body)
      = decodeReadSeeker fuel { s := body, i := 0 } L e0 := by
  have hws : ∀ v ∈ List.replicate LengthRedundancy L, v < 2 ^ 64 := by
    intro v hv; rw [List.eq_of_mem_replicate hv]; exact hL
  have hmaj : (List.replicate LengthRedundancy L).length / 2
      < (List.replicate LengthRedundancy L).countP (fun x => decide (x = L)) := by
    rw [List.length_replicate, List.countP_replicate]
    simp only [decide_True, if_true]
    decide
  have hN : (List.replicate LengthRedundancy L).length < 2 ^ 64 := by
    rw [List.length_replicate]; unfold LengthRedundancy; norm_num
  have h := DecodeWord_majority _ L hL hN hmaj 0
  have hdrop : (headerOf (List.replicate LengthRedundancy L) ++ body).drop
      (8 * LengthRedundancy) = body := by
    apply List.drop_left'
    rw [headerOf_length, List.length_replicate]
  have hdl := decodeLength_headerOf _ body (List.length_replicate LengthRedundancy L) hws
  rw [h] at hdl
  exact ⟨_, decode_eq fuel _ L _ _ (8 * LengthRedundancy) body hdl (Int.toNat_ofNat _) hdrop⟩

/-- The decoder proper on an empty body with the length 0: nothing is written. -/
theorem decodeReadSeeker_nil (fuel : Nat) (hfuel : 0 < fuel) (e : Nat) :
    decodeReadSeeker fuel { s := [], i := 0 } 0 e = Result.done ([], e) := by
  obtain ⟨k, rfl⟩ : ∃ k, fuel = k + 1 := ⟨fuel - 1, by omega⟩
  have hpl : int64 ((paddedLength 0 : Nat) : Int) = 0 := by
    have h0 : paddedLength 0 = 0 := by unfold paddedLength; simp
    rw [h0]; exact int64_of_lt (by omega) (by omega)
  have hsl : int64 ((0 : Int) - ((WordBytes : Nat) : Int)) = -8 := by
    unfold int64 WordBytes; omega
  have hmj : Int.tdiv (0 : Int) ((WordBytes : Nat) : Int) = 0 := Int.zero_tdiv _
  have hscan : scanLoop (-8) (k + 1) ((0 : Int), ({ s := [], i := 0 } : Reader)).2 0
      = Result.done ((0 : Int), ({ s := [], i := 0 } : Reader)) := by
    rw [scanLoop]
    simp [Reader.readFull, WordBytes]
  have hw : wordLoop 0 0 ((0 : Int), ({ s := [], i := 0 } : Reader)).1 (-8)
      ((0 : Int), ({ s := [], i := 0 } : Reader)).1 0 0 0
      { f := ((0 : Int), ({ s := [], i := 0 } : Reader)).2, out := [], totalBitErrors := e }
      = Result.done { f := { s := [], i := 0 }, out := [], totalBitErrors := e } := by
    rw [wordLoop]
  exact decodeReadSeeker_eq (k + 1) { s := [], i := 0 } 0 e (0, { s := [], i := 0 })
    (0, { s := [], i := 0 }) { f := { s := [], i := 0 }, out := [], totalBitErrors := e }
    0 (-8) 0 0 hpl hsl hmj rfl (Seek_cur_zero []) hscan hw

theorem encode_returned (n : Nat) (D : List Byte) (room : Nat) (hD : D.length < 2 ^ 64)
    (hroom : 8 * LengthRedundancy + n * (padded D).length ≤ room) :
    encode n D { written := [], room := room }
      = (Exit.returned,
         { written := headerOf (List.replicate LengthRedundancy D.length)
             ++ (List.replicate n (padded D)).flatten,
           room := room - 8 * LengthRedundancy - n * (padded D).length }) := by
  have h1 : writeHeader D.length LengthRedundancy { written := [], room := room }
      = { written := [] ++ headerOf (List.replicate LengthRedundancy D.length),
          room := room - 8 * LengthRedundancy } :=
    writeHeader_full D.length LengthRedundancy { written := [], room := room }
      (Nat.le_trans (Nat.le_add_right _ _) hroom)
  rw [List.nil_append] at h1
  have h2 : n * (padded D).length ≤ room - 8 * LengthRedundancy :=
    Nat.le_sub_of_add_le (by rw [Nat.add_comm]; exact hroom)
  have h3 := writeCopies_returned (padded D) n 0
    { written := headerOf (List.replicate LengthRedundancy D.length),
      room := room - 8 * LengthRedundancy } h2
  rw [encode, uint64_of_lt hD, h1, h3]

theorem length_le_padded (D : List Byte) : D.length ≤ (padded D).length := by
  unfold padded
  simp only []
  split
  · rw [List.length_append]; omega
  · exact Nat.le_refl _

theorem flatten_of_nil : ∀ (copies : List (List Byte)), (∀ c ∈ copies, c = []) →
    copies.flatten = [] := by
  intro copies
  induction copies with
  | nil => intro _; rfl
  | cons c cs ih =>
    intro h
    rw [List.flatten_cons, h c (List.mem_cons_self _ _),
      ih (fun x hx => h x (List.mem_cons_of_mem _ hx))]
    rfl

theorem padded_nil : padded [] = [] := by
  rw [padded_eq [] (by simp)]
  rfl

/-- The stream of an intact header and a body of whole copies and a fragment is
decoded to the payload when the copies equal to the padded payload are a strict
majority of the copies the scan finds. -/
theorem decode_copies (D : List Byte) (hD : D ≠ []) (copies : List (List Byte))
    (frag : List Byte) (hcopies : ∀ c ∈ copies, c.length = (padded D).length)
    (hfrag : frag.length < (padded D).length)
    (hsz : (copies.length + 2) * (padded D).length < 2 ^ 63)
    (hmaj : (copies.length + (if 8 ≤ frag.length then 1 else 0)) / 2
      < copies.countP (fun c => decide (c = padded D)))
    (fuel : Nat) (hfuel : copies.length + 1 < fuel) :
    ∃ e, decode fuel (headerOf (List.replicate LengthRedundancy D.length)
      ++ (copies.flatten ++ frag)) = Result.done (D, e) := by
  have hpos : 0 < D.length := List.length_pos.2 hD
  have hle := length_le_padded D
  have hbig : (padded D).length ≤ (copies.length + 2) * (padded D).length := by
    have := Nat.mul_le_mul_right (padded D).length (show 1 ≤ copies.length + 2 by omega)
    rwa [Nat.one_mul] at this
  have hL : D.length ≤ 2 ^ 64 - 8 := by omega
  have hP : (padded D).length = 8 * ((D.length + 7) / 8) := by
    rw [padded_length D hL, Nat.mul_comm]
  have hPL : paddedLength D.length = 8 * ((D.length + 7) / 8) := by
    rw [paddedLength_eq _ hL, Nat.mul_comm]
  rw [hP] at hcopies hfrag hsz
  obtain ⟨e0, he0⟩ := decode_headerOf D.length (by omega) (copies.flatten ++ frag) fuel
  obtain ⟨e', he'⟩ := decodeReadSeeker_body (padded D) D.length ((D.length + 7) / 8) (by omega)
    hPL (by omega) (by omega) hP copies frag hcopies hfrag hsz hmaj fuel hfuel e0
  rw [padded_take D hL] at he'
  exact ⟨e', by rw [he0, he']⟩

theorem flipCopies_replicate (T : List Byte) : ∀ (flips : List Bool),
    flipCopies T.length flips (List.replicate flips.length T).flatten
      = (flips.map (fun b => if b then T.map flipByte else T)).flatten := by
  intro flips
  induction flips with
  | nil => rfl
  | cons b bs ih =>
    rw [List.length_cons, List.replicate_succ, List.flatten_cons, flipCopies,
      List.take_left, List.drop_left, ih, List.map_cons, List.flatten_cons]

theorem countP_flips (T : List Byte) : ∀ (flips : List Bool),
    flips.length ≤ flips.count true
      + (flips.map (fun b => if b then T.map flipByte else T)).countP
          (fun c => decide (c = T)) := by
  intro flips
  induction flips with
  | nil => simp
  | cons b bs ih =>
    rw [List.map_cons, List.countP_cons, List.count_cons, List.length_cons]
    cases b
    · simp only [Bool.false_eq_true, if_false, decide_True, if_true, beq_iff_eq]
      omega
    · simp only [if_true, beq_self_eq_true]
      omega

theorem flatten_replicate_nil (n : Nat) : (List.replicate n ([] : List Byte)).flatten = [] :=
  flatten_of_nil _ (fun _ hc => List.eq_of_mem_replicate hc)

/-- The stream of an intact header and `n` whole copies of the padded payload, for
an empty payload as well. -/
theorem decode_replicate (D : List Byte) (n : Nat) (hn : 1 ≤ n)
    (hsz : (n + 2) * (D.length + 8) < 2 ^ 63) (fuel : Nat) (hfuel : n + 1 < fuel) :
    ∃ e, decode fuel (headerOf (List.replicate LengthRedundancy D.length)
      ++ (List.replicate n (padded D)).flatten) = Result.done (D, e) := by
  have hbig : D.length + 8 ≤ (n + 2) * (D.length + 8) := by
    have := Nat.mul_le_mul_right (D.length + 8) (show 1 ≤ n + 2 by omega)
    rwa [Nat.one_mul] at this
  have hL : D.length ≤ 2 ^ 64 - 8 := by omega
  by_cases hD : D = []
  · subst hD
    obtain ⟨e0, he0⟩ := decode_headerOf 0 (by norm_num) [] fuel
    rw [padded_nil, flatten_replicate_nil, List.length_nil, he0,
      decodeReadSeeker_nil fuel (by omega) e0]
    exact ⟨e0, rfl⟩
  · have hP : (padded D).length ≤ D.length + 8 := by
      rw [padded_length D hL]; omega
    have h := decode_copies D hD (List.replicate n (padded D)) []
      (fun c hc => by rw [List.eq_of_mem_replicate hc])
      (by
        have := List.length_pos.2 (padded_ne_nil D hD)
        simpa using this)
      (by
        rw [List.length_replicate]
        exact lt_of_le_of_lt (Nat.mul_le_mul_left _ hP) hsz)
      (by
        rw [List.length_replicate, List.countP_replicate]
        simp only [List.length_nil, decide_True, if_true]
        simp only [show ¬ (8 ≤ 0) by omega, if_false]
        omega)
      fuel (by rw [List.length_replicate]; exact hfuel)
    rw [List.append_nil] at h
    exact h

/-- C1: round trip.  For every payload `D`, the empty one included, and every
number `n ≥ 1` of copies: the encoder bounded to `n` copies, on a medium with room
for them, returns after writing the header of 10000 words holding `len(D)` and `n`
copies of the padded payload, and `decode`, given enough fuel for its scan, outputs
exactly `D` from that stream.  The size bound keeps the stream offsets within
`int64`. -/
theorem round_trip (D : List Byte) (n : Nat) (hn : 1 ≤ n)
    (hsz : (n + 2) * (D.length + 8) < 2 ^ 63) (room : Nat)
    (hroom : 8 * LengthRedundancy + n * (padded D).length ≤ room)
    (fuel : Nat) (hfuel : n + 1 < fuel) :
    (encode n D { written := [], room := room }).1 = Exit.returned ∧
      (encode n D { written := [], room := room }).2.written
        = headerOf (List.replicate LengthRedundancy D.length)
          ++ (List.replicate n (padded D)).flatten ∧
      ∃ e, decode fuel (encode n D { written := [], room := room }).2.written
        = Result.done (D, e) := by
  have hbig : D.length + 8 ≤ (n + 2) * (D.length + 8) := by
    have := Nat.mul_le_mul_right (D.length + 8) (show 1 ≤ n + 2 by omega)
    rwa [Nat.one_mul] at this
  rw [encode_returned n D room (by omega) hroom]
  exact ⟨rfl, rfl, decode_replicate D n hn hsz fuel hfuel⟩

/-- Witness for C1: the payload "hi" with one copy. -/
theorem round_trip_witness :
    (encode 1 [104, 105] { written := [], room := 80008 }).1 = Exit.returned ∧
      (encode 1 [104, 105] { written := [], room := 80008 }).2.written
        = headerOf (List.replicate LengthRedundancy ([104, 105] : List Byte).length)
          ++ (List.replicate 1 (padded [104, 105])).flatten ∧
      ∃ e, decode 3 (encode 1 [104, 105] { written := [], room := 80008 }).2.written
        = Result.done ([104, 105], e) :=
  round_trip [104, 105] 1 (by decide) (by norm_num) 80008
    (by rw [padded_length _ (by norm_num)]; decide) 3 (by decide)

/-- C2: error tolerance.  For every payload `D` encoded with `N = flips.length`
whole copies behind an intact header, and every subset `flips` of the copies with
at most `N / 2 - 1` members: after every bit of every copy in the subset is
inverted, `decode`, given enough fuel for its scan, still outputs exactly `D`.  The
size bound keeps the stream offsets within `int64`. -/
theorem error_tolerance (D : List Byte) (flips : List Bool)
    (hflips : flips.count true + 1 ≤ flips.length / 2)
    (hsz : (flips.length + 2) * (D.length + 8) < 2 ^ 63) (room : Nat)
    (hroom : 8 * LengthRedundancy + flips.length * (padded D).length ≤ room)
    (fuel : Nat) (hfuel : flips.length + 1 < fuel) :
    ∃ e, decode fuel
      (((encode flips.length D { written := [], room := room }).2.written).take
          (8 * LengthRedundancy)
        ++ flipCopies (padded D).length flips
            (((encode flips.length D { written := [], room := room }).2.written).drop
              (8 * LengthRedundancy)))
      = Result.done (D, e) := by
  have hbig : D.length + 8 ≤ (flips.length + 2) * (D.length + 8) := by
    have := Nat.mul_le_mul_right (D.length + 8) (show 1 ≤ flips.length + 2 by omega)
    rwa [Nat.one_mul] at this
  have hL : D.length ≤ 2 ^ 64 - 8 := by omega
  have hhl : (headerOf (List.replicate LengthRedundancy D.length)).length
      = 8 * LengthRedundancy := by
    rw [headerOf_length, List.length_replicate]
  rw [encode_returned flips.length D room (by omega) hroom]
  simp only []
  rw [List.take_left' hhl, List.drop_left' hhl, flipCopies_replicate]
  by_cases hD : D = []
  · subst hD
    obtain ⟨e0, he0⟩ := decode_headerOf 0 (by norm_num) [] fuel
    have hnil : (List.map (fun b => if b = true then List.map flipByte (padded [])
        else padded []) flips).flatten = [] := by
      apply flatten_of_nil
      intro c hc
      rw [padded_nil] at hc
      obtain ⟨b, _, rfl⟩ := List.mem_map.1 hc
      cases b <;> rfl
    rw [hnil, List.length_nil, he0, decodeReadSeeker_nil fuel (by omega) e0]
    exact ⟨e0, rfl⟩
  · have hP : (padded D).length ≤ D.length + 8 := by
      rw [padded_length D hL]; omega
    have hcount := countP_flips (padded D) flips
    have h := decode_copies D hD
      (flips.map (fun b => if b then (padded D).map flipByte else padded D)) []
      (by
        intro c hc
        obtain ⟨b, _, rfl⟩ := List.mem_map.1 hc
        cases b
        · rfl
        · exact List.length_map _ _)
      (by
        have := List.length_pos.2 (padded_ne_nil D hD)
        simpa using this)
      (by
        rw [List.length_map]
        exact lt_of_le_of_lt (Nat.mul_le_mul_left _ hP) hsz)
      (by
        rw [List.length_map]
        simp only [List.length_nil, show ¬ (8 ≤ 0) by omega, if_false]
        omega)
      fuel (by rw [List.length_map]; exact hfuel)
    rw [List.append_nil] at h
    exact h

/-- Witness for C2: the payload "hi" with four copies, the second one inverted. -/
theorem error_tolerance_witness :
    ∃ e, decode 6
      (((encode ([false, true, false, false] : List Bool).length [104, 105]
            { written := [], room := 80032 }).2.written).take (8 * LengthRedundancy)
        ++ flipCopies (padded [104, 105]).length [false, true, false, false]
            (((encode ([false, true, false, false] : List Bool).length [104, 105]
                { written := [], room := 80032 }).2.written).drop (8 * LengthRedundancy)))
      = Result.done ([104, 105], e) :=
  error_tolerance [104, 105] [false, true, false, false] (by decide) (by norm_num) 80032
    (by rw [padded_length _ (by norm_num)]; decide) 6 (by decide)

/-- C6: padding exactness.  For every payload `D` whose length is not a multiple of
8, encoded with `n ≥ 1` copies: the output of `decode` has exactly `len(D)` bytes;
it is the padded payload without its last word, followed by the first
`8 - (paddedLength - len(D))` big-endian bytes of that last word; and the padded
payload is the output followed by the zero pad bytes, none of which is written.
The size bound keeps the stream offsets within `int64`. -/
theorem padding_exactness (D : List Byte) (n : Nat) (hD : D.length % 8 ≠ 0) (hn : 1 ≤ n)
    (hsz : (n + 2) * (D.length + 8) < 2 ^ 63) (room : Nat)
    (hroom : 8 * LengthRedundancy + n * (padded D).length ≤ room)
    (fuel : Nat) (hfuel : n + 1 < fuel) :
    ∃ out e, decode fuel (encode n D { written := [], room := room }).2.written
        = Result.done (out, e) ∧
      out.length = D.length ∧
      out = (padded D).take (paddedLength D.length - 8)
        ++ (putUint64 (getUint64 ((padded D).drop (paddedLength D.length - 8)))).take
            (8 - (paddedLength D.length - D.length)) ∧
      padded D = out ++ List.replicate (paddedLength D.length - D.length) 0 := by
  have hbig : D.length + 8 ≤ (n + 2) * (D.length + 8) := by
    have := Nat.mul_le_mul_right (D.length + 8) (show 1 ≤ n + 2 by omega)
    rwa [Nat.one_mul] at this
  have hL : D.length ≤ 2 ^ 64 - 8 := by omega
  have hPL := paddedLength_eq D.length hL
  have hlen := padded_length D hL
  obtain ⟨e, he⟩ := decode_replicate D n hn hsz fuel hfuel
  rw [encode_returned n D room (by omega) hroom]
  refine ⟨D, e, he, rfl, ?_, ?_⟩
  · rw [putUint64_getUint64_take _ (by rw [List.length_drop, hlen, hPL]; omega),
      List.take_take, ← List.take_add]
    have h1 : paddedLength D.length - 8
        + min (8 - (paddedLength D.length - D.length)) 8 = D.length := by
      rw [hPL]; omega
    rw [h1, padded_take D hL]
  · rw [hPL]
    exact padded_eq D hL

/-- Witness for C6: the payload "hi" with one copy; two bytes are written. -/
theorem padding_exactness_witness :
    ∃ out e, decode 3 (encode 1 [104, 105] { written := [], room := 80008 }).2.written
        = Result.done (out, e) ∧
      out.length = ([104, 105] : List Byte).length ∧
      out = (padded [104, 105]).take (paddedLength ([104, 105] : List Byte).length - 8)
        ++ (putUint64 (getUint64 ((padded [104, 105]).drop
              (paddedLength ([104, 105] : List Byte).length - 8)))).take
            (8 - (paddedLength ([104, 105] : List Byte).length
              - ([104, 105] : List Byte).length)) ∧
      padded [104, 105] = out
        ++ List.replicate (paddedLength ([104, 105] : List Byte).length
            - ([104, 105] : List Byte).length) 0 :=
  padding_exactness [104, 105] 1 (by decide) (by decide) (by norm_num) 80008
    (by rw [padded_length _ (by norm_num)]; decide) 3 (by decide)

theorem encode_exhausted (D : List Byte) (hD : D ≠ []) (cap : Nat) (hlen : D.length < 2 ^ 64)
    (hcap : 8 * LengthRedundancy ≤ cap) (hlt : cap < MaxNumCopies) :
    encode MaxNumCopies D { written := [], room := cap }
      = (if (cap - 8 * LengthRedundancy) / (padded D).length < 3 then Exit.exit 1
         else Exit.exit 0,
         { written := headerOf (List.replicate LengthRedundancy D.length)
             ++ (List.replicate ((cap - 8 * LengthRedundancy) / (padded D).length)
                  (padded D)).flatten
             ++ (padded D).take ((cap - 8 * LengthRedundancy) % (padded D).length),
           room := 0 }) := by
  have h1 : writeHeader D.length LengthRedundancy { written := [], room := cap }
      = { written := [] ++ headerOf (List.replicate LengthRedundancy D.length),
          room := cap - 8 * LengthRedundancy } :=
    writeHeader_full D.length LengthRedundancy { written := [], room := cap } hcap
  rw [List.nil_append] at h1
  have h2 : (cap - 8 * LengthRedundancy) / (padded D).length < MaxNumCopies :=
    lt_of_le_of_lt (Nat.div_le_self _ _) (lt_of_le_of_lt (Nat.sub_le _ _) hlt)
  have h3 := writeCopies_exhausted (padded D) (padded_ne_nil D hD) MaxNumCopies 0
    { written := headerOf (List.replicate LengthRedundancy D.length),
      room := cap - 8 * LengthRedundancy } h2
  rw [Nat.zero_add] at h3
  rw [encode, uint64_of_lt hlen, h1, h3]

/-- C7: round trip over an exhausted medium.  For every non-empty payload `D` and
every capacity `cap` on which at least 3 whole padded copies fit after the header:
`encode` ends with `os.Exit(0)` having filled the medium with the header, the whole
copies that fit and the leading fragment of one more copy, and `decode`, given
enough fuel for its scan, outputs exactly `D` from those bytes.  The capacity bound
keeps the stream offsets within `int64`. -/
theorem exhausted_medium_round_trip (D : List Byte) (hD : D ≠ []) (cap : Nat)
    (hfit : 8 * LengthRedundancy + 3 * (padded D).length ≤ cap) (hsz : cap < 2 ^ 62)
    (fuel : Nat) (hfuel : cap < fuel) :
    (encode MaxNumCopies D { written := [], room := cap }).1 = Exit.exit 0 ∧
      (encode MaxNumCopies D { written := [], room := cap }).2.written
        = headerOf (List.replicate LengthRedundancy D.length)
          ++ (List.replicate ((cap - 8 * LengthRedundancy) / (padded D).length)
                (padded D)).flatten
          ++ (padded D).take ((cap - 8 * LengthRedundancy) % (padded D).length) ∧
      ∃ e, decode fuel (encode MaxNumCopies D { written := [], room := cap }).2.written
        = Result.done (D, e) := by
  have hle := length_le_padded D
  have hpos : 0 < (padded D).length := List.length_pos.2 (padded_ne_nil D hD)
  have hk : 3 ≤ (cap - 8 * LengthRedundancy) / (padded D).length := by
    rw [Nat.le_div_iff_mul_le hpos]; omega
  have hkP := Nat.div_mul_le_self (cap - 8 * LengthRedundancy) (padded D).length
  have hr := Nat.mod_lt (cap - 8 * LengthRedundancy) hpos
  have hk1 : (cap - 8 * LengthRedundancy) / (padded D).length ≤ cap - 8 * LengthRedundancy :=
    Nat.div_le_self _ _
  have hLR : 0 < 8 * LengthRedundancy := by decide
  rw [encode_exhausted D hD cap (by omega) (by omega) (by unfold MaxNumCopies; omega)]
  refine ⟨by rw [if_neg (by omega)], rfl, ?_⟩
  simp only []
  rw [List.append_assoc]
  refine decode_copies D hD _ _ (fun c hc => by rw [List.eq_of_mem_replicate hc]) ?_ ?_ ?_
    fuel ?_
  · rw [List.length_take]; omega
  · rw [List.length_replicate, Nat.add_mul]; omega
  · rw [List.length_replicate, List.countP_replicate]
    simp only [decide_True, if_true]
    split <;> omega
  · rw [List.length_replicate]; omega

/-- Witness for C7: the payload "hi" on a medium of 80030 bytes: three whole copies
and a fragment of six bytes. -/
theorem exhausted_medium_round_trip_witness :
    (encode MaxNumCopies [104, 105] { written := [], room := 80030 }).1 = Exit.exit 0 ∧
      (encode MaxNumCopies [104, 105] { written := [], room := 80030 }).2.written
        = headerOf (List.replicate LengthRedundancy ([104, 105] : List Byte).length)
          ++ (List.replicate ((80030 - 8 * LengthRedundancy) / (padded [104, 105]).length)
                (padded [104, 105])).flatten
          ++ (padded [104, 105]).take
              ((80030 - 8 * LengthRedundancy) % (padded [104, 105]).length) ∧
      ∃ e, decode 80031
          (encode MaxNumCopies [104, 105] { written := [], room := 80030 }).2.written
        = Result.done ([104, 105], e) :=
  exhausted_medium_round_trip [104, 105] (by decide) 80030
    (by rw [padded_length _ (by norm_num)]; decide) (by norm_num) 80031 (by decide)

/-! ## Claims about the accumulator -/

theorem DecodeWord_fst_eq (w : WordValues) (e1 e2 : Nat) :
    (w.DecodeWord e1).1 = (w.DecodeWord e2).1 := by
  apply Nat.eq_of_testBit_eq
  intro k
  by_cases hk : k < 64
  · exact (DecodeWord_testBit w e1 ⟨k, hk⟩).trans (DecodeWord_testBit w e2 ⟨k, hk⟩).symm
  · rw [DecodeWord_testBit_ge w e1 (by omega), DecodeWord_testBit_ge w e2 (by omega)]

theorem WordValues_eq (v w : WordValues) (h1 : ∀ i : Fin 64, v.OneCount.get i = w.OneCount.get i)
    (h2 : v.Count = w.Count) : v = w := by
  cases v with
  | mk o1 c1 =>
    cases w with
    | mk o2 c2 =>
      simp only [] at h1 h2
      rw [Mathlib.Vector.ext h1, h2]

theorem AddWord_AddWord_comm (w : WordValues) (a b : Nat) :
    (w.AddWord a).AddWord b = (w.AddWord b).AddWord a := by
  apply WordValues_eq
  · intro i
    rw [AddWord_OneCount, AddWord_OneCount, AddWord_OneCount, AddWord_OneCount]
    unfold uint64
    have h1 := Int.emod_emod_of_dvd ((w.OneCount.get i : Int) + ((a.testBit i.val).toNat : Int))
      (dvd_refl ((2 : Int) ^ 64))
    omega
  · rw [AddWord_Count, AddWord_Count, AddWord_Count, AddWord_Count]

/-- C12: the invariant of the bit voter.  Starting from the zero-valued
`WordValues`, after any sequence of fewer than `2 ^ 64` calls of `AddWord` every
one of the 64 bit counters is at most `Count`. -/
theorem bitvoter_invariant (ws : List Nat) (hN : ws.length < 2 ^ 64) :
    ∀ i : Fin 64, (ws.foldl WordValues.AddWord WordValues.zero).OneCount.get i
      ≤ (ws.foldl WordValues.AddWord WordValues.zero).Count := by
  intro i
  rw [feed_Count ws hN, feed_OneCount ws hN]
  exact List.countP_le_length _

/-- Witness for C12: three observations. -/
theorem bitvoter_invariant_witness :
    ([5, 3, 6] : List Nat).length < 2 ^ 64 ∧
      ∀ i : Fin 64,
        (([5, 3, 6] : List Nat).foldl WordValues.AddWord WordValues.zero).OneCount.get i
          ≤ (([5, 3, 6] : List Nat).foldl WordValues.AddWord WordValues.zero).Count :=
  ⟨by decide, bitvoter_invariant [5, 3, 6] (by decide)⟩

/-- C14: `AddWord` is the operation observe.  In every accumulator state whose
counters are below the largest `uint64` value, `AddWord word` adds exactly 1 to
`OneCount[i]` for every position `i` whose bit is 1 in `word`, leaves `OneCount[i]`
as it is for every position whose bit is 0, and adds exactly 1 to `Count`; hence
after a list `ws` of fewer than `2 ^ 64` words is observed from the zero state,
`OneCount[i]` is the number of words of `ws` with bit `i` set and `Count` is the
length of `ws`. -/
theorem AddWord_observe (w : WordValues) (word : Nat) (ws : List Nat)
    (hC : w.Count < 2 ^ 64 - 1) (hO : ∀ i : Fin 64, w.OneCount.get i < 2 ^ 64 - 1)
    (hN : ws.length < 2 ^ 64) :
    (∀ i : Fin 64, (w.AddWord word).OneCount.get i
        = w.OneCount.get i + (if word.testBit i.val then 1 else 0)) ∧
      (w.AddWord word).Count = w.Count + 1 ∧
      (∀ i : Fin 64, (ws.foldl WordValues.AddWord WordValues.zero).OneCount.get i
        = ws.countP (fun x => x.testBit i.val)) ∧
      (ws.foldl WordValues.AddWord WordValues.zero).Count = ws.length := by
  refine ⟨?_, ?_, fun i => feed_OneCount ws hN i, feed_Count ws hN⟩
  · intro i
    have h := hO i
    have hb : (if word.testBit i.val then 1 else 0) = (word.testBit i.val).toNat := by
      cases word.testBit i.val <;> rfl
    have hle := Bool.toNat_le (word.testBit i.val)
    rw [AddWord_OneCount, hb]
    unfold uint64
    omega
  · rw [AddWord_Count]
    unfold uint64
    omega

/-- Witness for C14: the word 5 observed in the zero state, and the list of the
words 5 and 3. -/
theorem AddWord_observe_witness :
    (∀ i : Fin 64, (WordValues.zero.AddWord 5).OneCount.get i
        = WordValues.zero.OneCount.get i + (if (5 : Nat).testBit i.val then 1 else 0)) ∧
      (WordValues.zero.AddWord 5).Count = WordValues.zero.Count + 1 ∧
      (∀ i : Fin 64, (([5, 3] : List Nat).foldl WordValues.AddWord WordValues.zero).OneCount.get i
        = ([5, 3] : List Nat).countP (fun x => x.testBit i.val)) ∧
      (([5, 3] : List Nat).foldl WordValues.AddWord WordValues.zero).Count
        = ([5, 3] : List Nat).length :=
  AddWord_observe WordValues.zero 5 [5, 3] (by rw [zero_Count]; decide)
    (fun i => by rw [zero_OneCount]; decide) (by decide)

/-- C16: the diagnostics do not influence the output.  For every accumulator state
and any two initial values of the disagreement total, `DecodeWord` returns the same
word. -/
theorem DecodeWord_ignores_total (w : WordValues) (e1 e2 : Nat) :
    (w.DecodeWord e1).1 = (w.DecodeWord e2).1 :=
  DecodeWord_fst_eq w e1 e2

/-- C20: order independence of the vote.  For all words `a` and `b` and every
accumulator state, `AddWord a` then `AddWord b` gives the same state as `AddWord b`
then `AddWord a`; hence two lists of observations that are permutations of each
other, fed to the same state, make `DecodeWord` return the same word and the same
disagreement total. -/
theorem vote_order_independent (w : WordValues) (a b : Nat) (ws1 ws2 : List Nat)
    (hperm : ws1.Perm ws2) (e : Nat) :
    (w.AddWord a).AddWord b = (w.AddWord b).AddWord a ∧
      (ws1.foldl WordValues.AddWord w).DecodeWord e
        = (ws2.foldl WordValues.AddWord w).DecodeWord e := by
  refine ⟨AddWord_AddWord_comm w a b, ?_⟩
  have h : ws1.foldl WordValues.AddWord w = ws2.foldl WordValues.AddWord w :=
    hperm.foldl_eq' (fun x _ y _ v => AddWord_AddWord_comm v x y) w
  rw [h]

/-- Witness for C20: the observations 1, 2, 3 and their rotation 3, 1, 2. -/
theorem vote_order_independent_witness :
    ((WordValues.zero.AddWord 6).AddWord 9 = (WordValues.zero.AddWord 9).AddWord 6) ∧
      (([1, 2, 3] : List Nat).foldl WordValues.AddWord WordValues.zero).DecodeWord 0
        = (([3, 1, 2] : List Nat).foldl WordValues.AddWord WordValues.zero).DecodeWord 0 :=
  vote_order_independent WordValues.zero 6 9 [1, 2, 3] [3, 1, 2] (by decide) 0

/-- What `DecodeWord` adds for one bit position is the number of observations that
differ in that position from the word it returns. -/
theorem disagreement_feed_eq (ws : List Nat) (hN : ws.length < 2 ^ 64) (e t : Nat)
    (ht : ((ws.foldl WordValues.AddWord WordValues.zero).DecodeWord e).1 = t) (i : Fin 64) :
    disagreement (ws.foldl WordValues.AddWord WordValues.zero) i
      = ((ws.countP (fun x => (x ^^^ t).testBit i.val) : Nat) : Int) := by
  have hle : ws.countP (fun x => x.testBit i.val) ≤ ws.length := List.countP_le_length _
  have hbit := DecodeWord_testBit (ws.foldl WordValues.AddWord WordValues.zero) e i
  rw [feed_Count ws hN, feed_OneCount ws hN, ht] at hbit
  unfold disagreement
  rw [feed_Count ws hN, feed_OneCount ws hN, countP_xor_testBit, hbit]
  by_cases h : ws.countP (fun x => x.testBit i.val) > ws.length / 2
  · rw [if_pos h, decide_eq_true h, if_pos rfl]
    omega
  · rw [if_neg h, decide_eq_false h, if_neg (by decide)]

theorem DecodeWord_snd_feed (ws : List Nat) (hN : ws.length < 2 ^ 64) (e t : Nat)
    (ht : ((ws.foldl WordValues.AddWord WordValues.zero).DecodeWord e).1 = t) :
    ((ws.foldl WordValues.AddWord WordValues.zero).DecodeWord e).2
      = uint64 ((e : Int) + (((ws.map (fun x => popcount64 (x ^^^ t))).sum : Nat) : Int)) := by
  have h2 : ∑ i : Fin 64, ws.countP (fun x => (x ^^^ t).testBit i.val)
      = ((ws.map (fun x => x ^^^ t)).map popcount64).sum := by
    rw [← sum_countP_testBit]
    apply Finset.sum_congr rfl
    intro i _
    rw [List.countP_map]
    rfl
  have h4 : ((ws.map (fun x => x ^^^ t)).map popcount64).sum
      = (ws.map (fun x => popcount64 (x ^^^ t))).sum := by
    rw [List.map_map]; rfl
  have h5 : ∑ i : Fin 64, disagreement (ws.foldl WordValues.AddWord WordValues.zero) i
      = (((ws.map (fun x => popcount64 (x ^^^ t))).sum : Nat) : Int) := by
    rw [← h4, ← h2]
    push_cast
    exact Finset.sum_congr rfl (fun i _ => disagreement_feed_eq ws hN e t ht i)
  rw [DecodeWord_snd, h5]

/-- C15: the meaning of the disagreement count.  For every list `ws` of fewer than
`2 ^ 64` observations fed to a fresh accumulator and every initial total `e`,
`DecodeWord` moves the total to `e` plus, in `uint64` arithmetic, the number of
(observation, bit position) pairs in which the observed bit differs from the bit of
the word `DecodeWord` returns: the sum over `x` in `ws` of `popcount (x xor word)`. -/
theorem disagreement_meaning (ws : List Nat) (hN : ws.length < 2 ^ 64) (e : Nat) :
    ((ws.foldl WordValues.AddWord WordValues.zero).DecodeWord e).2
      = uint64 ((e : Int) + (((ws.map (fun x => popcount64
          (x ^^^ ((ws.foldl WordValues.AddWord WordValues.zero).DecodeWord e).1))).sum
          : Nat) : Int)) :=
  DecodeWord_snd_feed ws hN e _ rfl

/-- Witness for C15: three observations, one of them with a flipped bit. -/
theorem disagreement_meaning_witness :
    ((([5, 5, 4] : List Nat).foldl WordValues.AddWord WordValues.zero).DecodeWord 0).2
      = uint64 (((0 : Nat) : Int) + (((([5, 5, 4] : List Nat).map (fun x => popcount64
          (x ^^^ ((([5, 5, 4] : List Nat).foldl WordValues.AddWord
            WordValues.zero).DecodeWord 0).1))).sum : Nat) : Int)) :=
  disagreement_meaning [5, 5, 4] (by decide) 0

/-! ## The scan loop on an arbitrary body -/

/-- The scan loop counts the offsets `i * P` at which 8 bytes can be read, as long
as the offsets it reaches stay within `int64`. -/
theorem scanLoop_exact (s : List Byte) (P : Nat) (hP : 8 ≤ P)
    (hr : scanCount s.length P * P < 2 ^ 63) :
    ∀ (fuel c : Nat), c ≤ scanCount s.length P → scanCount s.length P - c < fuel →
      ∃ q : Int, scanLoop ((P : Int) - 8) fuel { s := s, i := ((c * P : Nat) : Int) } (c : Int)
        = Result.done ((scanCount s.length P : Int), { s := s, i := q }) := by
  have hNP : scanCount s.length P ≤ scanCount s.length P * P :=
    Nat.le_mul_of_pos_right _ (by omega)
  intro fuel
  induction fuel with
  | zero => intro c _ h; omega
  | succ fuel ih =>
    intro c hc hfuel
    rw [scanLoop, readFull_eq]
    simp only [List.length_take, List.length_drop, WordBytes]
    by_cases hlt : c < scanCount s.length P
    · have hfull := (lt_scanCount_iff (by omega : 0 < P)).1 hlt
      have hmul := Nat.mul_le_mul_right P (Nat.succ_le_of_lt hlt)
      rw [Nat.succ_mul] at hmul
      have hmin : min 8 (s.length - c * P) = 8 := by omega
      rw [hmin]
      simp only [ne_eq, not_true_eq_false, if_false]
      rw [Seek_cur s _ _ (by push_cast; omega) (by push_cast; omega)]
      simp only []
      have hi : int64 ((c : Int) + 1) = ((c + 1 : Nat) : Int) := by
        rw [int64_of_lt (by omega) (by omega)]; push_cast; rfl
      have hpos : ((c * P + 8 : Nat) : Int) + ((P : Int) - 8) = (((c + 1) * P : Nat) : Int) := by
        push_cast; ring
      rw [hi, hpos]
      exact ih (c + 1) hlt (by omega)
    · have heq : c = scanCount s.length P := by omega
      have hshort : ¬ (c * P + 8 ≤ s.length) := fun h =>
        hlt ((lt_scanCount_iff (by omega : 0 < P)).2 h)
      have hmin : min 8 (s.length - c * P) ≠ 8 := by omega
      rw [if_pos hmin, ← heq]
      exact ⟨_, rfl⟩

theorem scanLoop_exact_zero (s : List Byte) (P : Nat) (hP : 8 ≤ P)
    (hr : scanCount s.length P * P < 2 ^ 63) (fuel : Nat)
    (hfuel : scanCount s.length P < fuel) :
    ∃ q : Int, scanLoop ((P : Int) - 8) fuel { s := s, i := 0 } 0
      = Result.done ((scanCount s.length P : Int), { s := s, i := q }) := by
  have h := scanLoop_exact s P hP hr fuel 0 (Nat.zero_le _) (by omega)
  simpa using h

theorem scanCount_eq_div_iff (B P : Nat) (hP : 8 ≤ P) :
    scanCount B P = B / P ↔ B % P < 8 := by
  have h := scanCount_body (B / P) P (B % P) hP (Nat.mod_lt _ (by omega))
  rw [Nat.div_add_mod'] at h
  rw [h]
  split <;> omega

/-- C18: what the scanner counts.  For every padded length `P` with
`8 ≤ P < 2 ^ 63` and every body, the scan loop of `decodeReadSeeker`, given more
fuel than the count, ends with `numCopies` equal to the number of indices `i` with
`i * P + 8 ≤ B` (`B` the length of the body): an index is below the count exactly
when `i * P + 8 ≤ B`; the count is 0 when `B < 8` and `(B - 8) / P + 1` otherwise;
and it equals `B / P` exactly when `B mod P < 8`.  The bound on `count * P` keeps
the probed offsets within `int64`. -/
theorem scanLoop_counts (s : List Byte) (P : Nat) (hP : 8 ≤ P) (hP63 : P < 2 ^ 63)
    (hr : scanCount s.length P * P < 2 ^ 63) (fuel : Nat)
    (hfuel : scanCount s.length P < fuel) :
    (∃ q : Int, scanLoop (int64 ((P : Int) - ((WordBytes : Nat) : Int))) fuel
        { s := s, i := 0 } 0
      = Result.done ((scanCount s.length P : Int), { s := s, i := q })) ∧
    (∀ i : Nat, i < scanCount s.length P ↔ i * P + 8 ≤ s.length) ∧
    scanCount s.length P = (if s.length < 8 then 0 else (s.length - 8) / P + 1) ∧
    (scanCount s.length P = s.length / P ↔ s.length % P < 8) := by
  have hsl : int64 ((P : Int) - ((WordBytes : Nat) : Int)) = (P : Int) - 8 := by
    unfold WordBytes
    simp only [Nat.cast_ofNat]
    exact int64_of_lt (by omega) (by omega)
  rw [hsl]
  exact ⟨scanLoop_exact_zero s P hP hr fuel hfuel,
    fun i => lt_scanCount_iff (by omega), rfl, scanCount_eq_div_iff _ _ hP⟩

/-- Witness for C18: a body of 24 bytes and the padded length 16; the count is 2,
while `24 / 16 = 1`. -/
theorem scanLoop_counts_witness :
    (∃ q : Int, scanLoop (int64 (((16 : Nat) : Int) - ((WordBytes : Nat) : Int))) 3
        { s := List.replicate 24 7, i := 0 } 0
      = Result.done ((scanCount (List.replicate 24 (7 : Byte)).length 16 : Int),
          { s := List.replicate 24 7, i := q })) ∧
    (∀ i : Nat, i < scanCount (List.replicate 24 (7 : Byte)).length 16
      ↔ i * 16 + 8 ≤ (List.replicate 24 (7 : Byte)).length) ∧
    scanCount (List.replicate 24 (7 : Byte)).length 16
      = (if (List.replicate 24 (7 : Byte)).length < 8 then 0
         else ((List.replicate 24 (7 : Byte)).length - 8) / 16 + 1) ∧
    (scanCount (List.replicate 24 (7 : Byte)).length 16
        = (List.replicate 24 (7 : Byte)).length / 16
      ↔ (List.replicate 24 (7 : Byte)).length % 16 < 8) :=
  scanLoop_counts (List.replicate 24 7) 16 (by decide) (by norm_num) (by decide) 3 (by decide)

/-- With the padded length 0 the scan loop reads 8 bytes and seeks 8 bytes back:
on a body of at least 8 bytes it is still running when any amount of fuel is used
up. -/
theorem scanLoop_zero_length (s : List Byte) (hs : 8 ≤ s.length) :
    ∀ (fuel : Nat) (i : Int), scanLoop (-8) fuel { s := s, i := 0 } i = Result.outOfFuel := by
  intro fuel
  induction fuel with
  | zero => intro i; rw [scanLoop]
  | succ fuel ih =>
    intro i
    have h0 : ({ s := s, i := 0 } : Reader) = { s := s, i := ((0 : Nat) : Int) } := rfl
    have hmin : min 8 (s.length - 0) = 8 := by omega
    rw [scanLoop, h0, readFull_eq]
    simp only [List.length_take, List.length_drop, WordBytes, hmin, ne_eq, not_true_eq_false,
      if_false, Nat.zero_add]
    rw [Seek_cur s _ _ (by omega) (by omega)]
    simp only []
    have h8 : ((8 : Nat) : Int) + (-8) = 0 := by omega
    rw [h8]
    exact ih _

theorem seekLen_zero : int64 (int64 ((paddedLength 0 : Nat) : Int) - ((WordBytes : Nat) : Int))
    = -8 := by
  have h0 : paddedLength 0 = 0 := by unfold paddedLength; simp
  rw [h0]
  unfold int64 WordBytes
  omega

/-- C17 (the code departs from the claim): with `PaddedLength = 0`, the padded
length of an empty payload, the skip distance is `-8`, and on every source with at
least 8 bytes left the scan loop of `decodeReadSeeker` reads the same word again
and again: whatever the fuel, it has not stopped and has yielded no copy count. -/
theorem scanLoop_never_stops (s : List Byte) (hs : 8 ≤ s.length) (fuel : Nat) :
    scanLoop (int64 (int64 ((paddedLength 0 : Nat) : Int) - ((WordBytes : Nat) : Int))) fuel
      { s := s, i := 0 } 0 = Result.outOfFuel := by
  rw [seekLen_zero]
  exact scanLoop_zero_length s hs fuel 0

/-- Witness for C17: a source of 8 bytes and a million probes. -/
theorem scanLoop_never_stops_witness :
    scanLoop (int64 (int64 ((paddedLength 0 : Nat) : Int) - ((WordBytes : Nat) : Int))) 1000000
      { s := [1, 2, 3, 4, 5, 6, 7, 8], i := 0 } 0 = Result.outOfFuel :=
  scanLoop_never_stops [1, 2, 3, 4, 5, 6, 7, 8] (by decide) 1000000

/-! ## The decoder proper on an arbitrary body -/

theorem headerOf_cons (a : Nat) (ws : List Nat) :
    headerOf (a :: ws) = putUint64 a ++ headerOf ws := by
  unfold headerOf
  rw [List.flatMap_cons]

theorem getUint64_headerOf_drop : ∀ (ws : List Nat) (j : Nat) (v : Nat),
    ws[j]? = some v → v < 2 ^ 64 → getUint64 ((headerOf ws).drop (8 * j)) = v := by
  intro ws
  induction ws with
  | nil => intro j v h _; simp at h
  | cons a ws ih =>
    intro j v h hv
    rw [headerOf_cons]
    cases j with
    | zero =>
      simp only [List.getElem?_cons_zero, Option.some.injEq] at h
      subst h
      rw [Nat.mul_zero, List.drop_zero, ← getUint64_take,
        List.take_left' (putUint64_length a), getUint64_putUint64 hv]
    | succ j =>
      simp only [List.getElem?_cons_succ] at h
      have h8 : 8 * (j + 1) = (putUint64 a).length + 8 * j := by
        rw [putUint64_length]; omega
      rw [h8, ← List.drop_drop, List.drop_left]
      exact ih j v h hv

/-- The decoder proper, with the scan bounded only by the offsets it reaches. -/
theorem decodeReadSeeker_spec2 (s T : List Byte) (L m : Nat) (hm : 1 ≤ m)
    (hPL : paddedLength L = 8 * m) (hL1 : L ≤ 8 * m) (hL2 : 8 * m < L + 8)
    (hT : T.length = 8 * m)
    (hsz : (scanCount s.length (8 * m) + 1) * (8 * m) < 2 ^ 63)
    (hfull : ∀ j c, j < m → c + 1 < scanCount s.length (8 * m) →
      8 * j + c * (8 * m) + 8 ≤ s.length)
    (hvote : ∀ j, j < m → ∀ e,
      (((votes s (8 * m) (8 * j) (scanCount s.length (8 * m))).foldl
          WordValues.AddWord WordValues.zero).DecodeWord e).1
        = getUint64 (T.drop (8 * j)))
    (fuel : Nat) (hfuel : scanCount s.length (8 * m) < fuel) (e : Nat) :
    ∃ e', decodeReadSeeker fuel { s := s, i := 0 } L e = Result.done (T.take L, e') := by
  have hsz' : scanCount s.length (8 * m) * (8 * m) + 8 * m < 2 ^ 63 := by
    rw [Nat.succ_mul] at hsz; exact hsz
  obtain ⟨q, hq⟩ := scanLoop_exact_zero s (8 * m) (by omega) (by omega) fuel hfuel
  have hpl : int64 ((paddedLength L : Nat) : Int) = ((8 * m : Nat) : Int) := by
    rw [hPL]; exact int64_of_lt (by omega) (by omega)
  have hsl : int64 (((8 * m : Nat) : Int) - ((WordBytes : Nat) : Int)) = ((8 * m : Nat) : Int) - 8 := by
    unfold WordBytes
    simp only [Nat.cast_ofNat]
    exact int64_of_lt (by omega) (by omega)
  have hmaxj : Int.tdiv ((8 * m : Nat) : Int) ((WordBytes : Nat) : Int) = (m : Int) := by
    unfold WordBytes
    rw [Int.tdiv_eq_ediv (by omega) (by omega)]
    omega
  obtain ⟨st', hst', hout'⟩ := wordLoop_spec s T L m (scanCount s.length (8 * m)) hm hL1 hL2 hT
    hsz hfull hvote m 0 { f := { s := s, i := q }, out := [], totalBitErrors := e }
    (by omega) rfl (by simp)
  have h0 : ((0 : Nat) : Int) = 0 := rfl
  rw [h0] at hst'
  refine ⟨st'.totalBitErrors, ?_⟩
  rw [← hout']
  exact decodeReadSeeker_eq fuel { s := s, i := 0 } L e (0, { s := s, i := 0 })
    ((scanCount s.length (8 * m) : Int), { s := s, i := q }) st' _ _ _ m hpl hsl hmaxj
    (Int.toNat_ofNat m) (Seek_cur_zero s) hq hst'

/-- The decoder proper on any body: when the offsets it reaches stay within
`int64`, it completes and writes as many bytes as the length says. -/
theorem decodeReadSeeker_length (s : List Byte) (L m : Nat) (hm : 1 ≤ m)
    (hPL : paddedLength L = 8 * m) (hL1 : L ≤ 8 * m) (hL2 : 8 * m < L + 8)
    (hsz : (scanCount s.length (8 * m) + 1) * (8 * m) < 2 ^ 63)
    (fuel : Nat) (hfuel : scanCount s.length (8 * m) < fuel) (e : Nat) :
    ∃ out e', decodeReadSeeker fuel { s := s, i := 0 } L e = Result.done (out, e') ∧
      out.length = L := by
  have hlen : (headerOf ((List.range m).map (fun j =>
      (((votes s (8 * m) (8 * j) (scanCount s.length (8 * m))).foldl
        WordValues.AddWord WordValues.zero).DecodeWord 0).1))).length = 8 * m := by
    rw [headerOf_length, List.length_map, List.length_range]
  obtain ⟨e', he'⟩ := decodeReadSeeker_spec2 s _ L m hm hPL hL1 hL2 hlen hsz
    (by
      intro j c hj hc
      have h1 := (lt_scanCount_iff (show 0 < 8 * m by omega)).1 hc
      rw [Nat.succ_mul] at h1
      omega)
    (by
      intro j hj e1
      rw [getUint64_headerOf_drop _ j _
        (by rw [List.getElem?_map, List.getElem?_range hj]; rfl) (DecodeWord_lt _ _)]
      exact DecodeWord_fst_eq _ _ _)
    fuel hfuel e
  refine ⟨_, e', he', ?_⟩
  rw [List.length_take, hlen]
  omega

theorem tdiv_toNat_of_nonpos (x : Int) (h : x ≤ 0) :
    (Int.tdiv x ((WordBytes : Nat) : Int)).toNat = 0 := by
  obtain ⟨k, rfl⟩ : ∃ k : Nat, x = -(k : Int) := ⟨x.natAbs, by omega⟩
  rw [Int.neg_tdiv]
  have : (0 : Int) ≤ Int.tdiv (k : Int) ((WordBytes : Nat) : Int) :=
    Int.tdiv_nonneg (by omega) (by omega)
  omega

theorem scanLoop_short (s : List Byte) (hs : s.length < 8) (sl : Int) (fuel : Nat)
    (hfuel : 0 < fuel) :
    ∃ q : Int, scanLoop sl fuel { s := s, i := 0 } 0 = Result.done (0, { s := s, i := q }) := by
  obtain ⟨k, rfl⟩ : ∃ k, fuel = k + 1 := ⟨fuel - 1, by omega⟩
  have h0 : ({ s := s, i := 0 } : Reader) = { s := s, i := ((0 : Nat) : Int) } := rfl
  rw [scanLoop, h0, readFull_eq]
  simp only [List.length_take, List.length_drop, WordBytes]
  rw [if_pos (by omega)]
  exact ⟨_, rfl⟩

/-- The decoder proper when the padded length, as an `int64`, is not positive: on
a body too short for one word nothing is written. -/
theorem decodeReadSeeker_nonpos (s : List Byte) (hs : s.length < 8) (L : Nat)
    (hpl : int64 ((paddedLength L : Nat) : Int) ≤ 0) (fuel : Nat) (hfuel : 0 < fuel)
    (e : Nat) :
    decodeReadSeeker fuel { s := s, i := 0 } L e = Result.done ([], e) := by
  obtain ⟨q, hq⟩ := scanLoop_short s hs
    (int64 (int64 ((paddedLength L : Nat) : Int) - ((WordBytes : Nat) : Int))) fuel hfuel
  have hw : wordLoop L (int64 ((paddedLength L : Nat) : Int))
      ((0 : Int), ({ s := s, i := 0 } : Reader)).1
      (int64 (int64 ((paddedLength L : Nat) : Int) - ((WordBytes : Nat) : Int)))
      ((0 : Int), ({ s := s, i := q } : Reader)).1
      (Int.tdiv (int64 ((paddedLength L : Nat) : Int)) ((WordBytes : Nat) : Int)) 0 0
      { f := ((0 : Int), ({ s := s, i := q } : Reader)).2, out := [], totalBitErrors := e }
      = Result.done { f := { s := s, i := q }, out := [], totalBitErrors := e } := by
    rw [wordLoop]
  exact decodeReadSeeker_eq fuel { s := s, i := 0 } L e (0, { s := s, i := 0 })
    (0, { s := s, i := q }) { f := { s := s, i := q }, out := [], totalBitErrors := e }
    _ _ _ 0 rfl rfl rfl (tdiv_toNat_of_nonpos _ hpl) (Seek_cur_zero s) hq hw

theorem paddedLength_cases (L : Nat) (hL : L < 2 ^ 64) :
    int64 ((paddedLength L : Nat) : Int) ≤ 0 ∨
      (1 ≤ paddedLength L / 8 ∧ paddedLength L = 8 * (paddedLength L / 8) ∧
        L ≤ paddedLength L ∧ paddedLength L < L + 8 ∧ paddedLength L < 2 ^ 63) := by
  unfold paddedLength WordBytes uint64 int64
  split <;> omega

theorem readLength_pos (s : List Byte) : ∀ (n p : Nat) (w : WordValues), p ≤ s.length →
    ∃ w', readLength n { s := s, i := (p : Int) } w
      = (w', { s := s, i := ((min (p + 8 * n) s.length : Nat) : Int) }) := by
  intro n
  induction n with
  | zero =>
    intro p w hp
    rw [readLength]
    have : min (p + 8 * 0) s.length = p := by omega
    rw [this]
    exact ⟨w, rfl⟩
  | succ n ih =>
    intro p w hp
    rw [readLength, binaryRead_eq]
    simp only []
    obtain ⟨w', hw'⟩ := ih (p + min 8 (s.length - p)) (w.AddWord (readAt s p)) (by omega)
    have : min (p + min 8 (s.length - p) + 8 * n) s.length = min (p + 8 * (n + 1)) s.length := by
      omega
    rw [this] at hw'
    exact ⟨w', hw'⟩

/-- On a stream too short for the whole header, `decode` runs the decoder proper
on an empty body with the length the vote over the readings decides. -/
theorem decode_short (s : List Byte) (hs : s.length < 8 * LengthRedundancy) (fuel : Nat) :
    ∃ L e, L < 2 ^ 64 ∧ decode fuel s = decodeReadSeeker fuel { s := [], i := 0 } L e := by
  obtain ⟨w', hw'⟩ := readLength_pos s LengthRedundancy 0 WordValues.zero (Nat.zero_le _)
  have hmin : min (0 + 8 * LengthRedundancy) s.length = s.length := by omega
  rw [hmin, Nat.cast_zero] at hw'
  have hdl : decodeLength s
      = ((w'.DecodeWord 0).1, (w'.DecodeWord 0).2, { s := s, i := (s.length : Int) }) := by
    rw [decodeLength, hw']
  exact ⟨(w'.DecodeWord 0).1, (w'.DecodeWord 0).2, DecodeWord_lt _ _,
    decode_eq fuel s _ _ _ s.length [] hdl (Int.toNat_ofNat _) (List.drop_length s)⟩

/-- The decoder proper on an empty body completes for every 64-bit length. -/
theorem decodeReadSeeker_empty_body (L : Nat) (hL : L < 2 ^ 64) (fuel : Nat) (hfuel : 0 < fuel)
    (e : Nat) :
    ∃ out e', decodeReadSeeker fuel { s := [], i := 0 } L e = Result.done (out, e') := by
  rcases paddedLength_cases L hL with h | ⟨h1, h2, h3, h4, h5⟩
  · exact ⟨[], e, decodeReadSeeker_nonpos [] (by simp) L h fuel hfuel e⟩
  · have hN : scanCount ([] : List Byte).length (8 * (paddedLength L / 8)) = 0 := by
      unfold scanCount; simp
    obtain ⟨out, e', h, _⟩ := decodeReadSeeker_length [] L (paddedLength L / 8) h1 h2
      (by omega) (by omega) (by rw [hN]; omega) fuel (by rw [hN]; exact hfuel) e
    exact ⟨out, e', h⟩

theorem readAt_min (s : List Byte) (q : Nat) : readAt s (min q s.length) = readAt s q := by
  by_cases h : q ≤ s.length
  · rw [Nat.min_eq_left h]
  · have h1 : min q s.length = s.length := by omega
    have h2 : s.drop q = [] := List.drop_eq_nil_of_le (by omega)
    rw [h1]
    unfold readAt
    rw [List.drop_length, h2]

/-- The header loop of `decode` on any stream: reading number `k` is the word at
offset `8 * k`, and the word 0 when fewer than 8 bytes are left there. -/
theorem readLength_votes (s : List Byte) : ∀ (n q : Nat) (w : WordValues),
    readLength n { s := s, i := ((min q s.length : Nat) : Int) } w
      = ((votes s 8 q n).foldl WordValues.AddWord w,
         { s := s, i := ((min (q + 8 * n) s.length : Nat) : Int) }) := by
  intro n
  induction n with
  | zero => intro q w; rw [readLength]; rfl
  | succ n ih =>
    intro q w
    have hp : min q s.length + min 8 (s.length - min q s.length) = min (q + 8) s.length := by
      omega
    have hq : q + 8 + 8 * n = q + 8 * (n + 1) := by omega
    rw [readLength, binaryRead_eq]
    simp only []
    rw [hp, ih (q + 8), readAt_min, hq, votes, List.foldl_cons]

theorem decodeLength_votes (s : List Byte) :
    decodeLength s
      = ((((votes s 8 0 LengthRedundancy).foldl WordValues.AddWord
            WordValues.zero).DecodeWord 0).1,
         (((votes s 8 0 LengthRedundancy).foldl WordValues.AddWord
            WordValues.zero).DecodeWord 0).2,
         { s := s, i := ((min (8 * LengthRedundancy) s.length : Nat) : Int) }) := by
  have h := readLength_votes s LengthRedundancy 0 WordValues.zero
  rw [Nat.zero_min, Nat.cast_zero, Nat.zero_add] at h
  rw [decodeLength, h]

theorem votes_nil (P : Nat) : ∀ (n q : Nat), votes [] P q n = List.replicate n 0 := by
  intro n
  induction n with
  | zero => intro q; rfl
  | succ n ih =>
    intro q
    rw [votes, ih, List.replicate_succ]
    congr 1
    unfold readAt
    simp

theorem fst_of_eq {α β : Type} {p : α × β} {a : α} {b : β} (h : p = (a, b)) : p.1 = a := by
  rw [h]

theorem snd_snd_of_eq {α β γ : Type} {p : α × β × γ} {a : α} {b : β} {c : γ}
    (h : p = (a, b, c)) : p.2.2 = c := by
  rw [h]

/-- C13 (the code departs from the claim): on the empty input stream, which is
shorter than 80000 bytes, `decode` does not end with a fatal error.  The header
loop drops the error of `binary.Read`, so that every one of the 10000 readings
counts as the word 0; the length decided from these readings is 0, and the run
ends normally with an empty output. -/
theorem decode_empty_stream_completes :
    ([] : List Byte).length < 8 * LengthRedundancy ∧
      (decodeLength []).1 = 0 ∧ ∃ e, decode 1 [] = Result.done ([], e) := by
  have hdl := decodeLength_votes []
  have hA : (((votes [] 8 0 LengthRedundancy).foldl WordValues.AddWord
      WordValues.zero).DecodeWord 0).1 = 0 := by
    rw [votes_nil]
    apply DecodeWord_majority _ 0 (by norm_num)
    · rw [List.length_replicate]; unfold LengthRedundancy; norm_num
    · rw [List.length_replicate, List.countP_replicate]
      simp only [decide_True, if_true]
      decide
  rw [hA] at hdl
  refine ⟨by decide, fst_of_eq hdl, ?_⟩
  refine ⟨(((votes [] 8 0 LengthRedundancy).foldl WordValues.AddWord
      WordValues.zero).DecodeWord 0).2, ?_⟩
  rw [decode_eq 1 [] 0 _ _ _ [] hdl (Int.toNat_ofNat _) List.drop_nil]
  exact decodeReadSeeker_nil 1 (by decide) _

/-- The same on every input stream shorter than 80000 bytes: `decode` does not end
with a fatal error.  The length is decided by the vote over 10000 readings at the
offsets `0, 8, 16, ...`, a reading for which fewer than 8 bytes are left counting
as the word 0; the header loop consumes the whole stream, so that the body is
empty; and `decode`, given fuel for one probe of the scan, completes. -/
theorem decode_short_stream_completes (s : List Byte) (hs : s.length < 8 * LengthRedundancy)
    (fuel : Nat) (hfuel : 0 < fuel) :
    (decodeLength s).1
        = (((votes s 8 0 LengthRedundancy).foldl WordValues.AddWord
            WordValues.zero).DecodeWord 0).1 ∧
      (decodeLength s).2.2 = { s := s, i := (s.length : Int) } ∧
      ∃ out e, decode fuel s = Result.done (out, e) := by
  have hdl := decodeLength_votes s
  have hmin : min (8 * LengthRedundancy) s.length = s.length := by omega
  rw [hmin] at hdl
  refine ⟨fst_of_eq hdl, snd_snd_of_eq hdl, ?_⟩
  obtain ⟨out, e', h⟩ := decodeReadSeeker_empty_body
    (((votes s 8 0 LengthRedundancy).foldl WordValues.AddWord WordValues.zero).DecodeWord 0).1
    (DecodeWord_lt _ _) fuel hfuel
    (((votes s 8 0 LengthRedundancy).foldl WordValues.AddWord WordValues.zero).DecodeWord 0).2
  exact ⟨out, e', by
    rw [decode_eq fuel s _ _ _ s.length [] hdl (Int.toNat_ofNat _) (List.drop_length s)]
    exact h⟩

/-- An instance of the above: a stream of two bytes. -/
theorem decode_short_stream_completes_witness :
    (decodeLength [104, 105]).1
        = (((votes [104, 105] 8 0 LengthRedundancy).foldl WordValues.AddWord
            WordValues.zero).DecodeWord 0).1 ∧
      (decodeLength [104, 105]).2.2
        = { s := [104, 105], i := (([104, 105] : List Byte).length : Int) } ∧
      ∃ out e, decode 1 [104, 105] = Result.done (out, e) :=
  decode_short_stream_completes [104, 105] (by decide) 1 (by decide)

/-- The decoder proper, when the word loop ends with a fatal error. -/
theorem decodeReadSeeker_eq_fatal (fuel : Nat) (f : Reader) (L e : Nat) (r : Int × Reader)
    (c : Int × Reader) (pl sl mj : Int) (n : Nat)
    (hpl : int64 ((paddedLength L : Nat) : Int) = pl)
    (hsl : int64 (pl - ((WordBytes : Nat) : Int)) = sl)
    (hmj : Int.tdiv pl ((WordBytes : Nat) : Int) = mj)
    (hn : mj.toNat = n)
    (hseek : f.Seek 0 1 = some r)
    (hscan : scanLoop sl fuel r.2 0 = Result.done c)
    (hw : wordLoop L pl r.1 sl c.1 mj n 0
      { f := c.2, out := [], totalBitErrors := e } = Result.fatal) :
    decodeReadSeeker fuel f L e = Result.fatal := by
  rw [decodeReadSeeker, hpl, hsl, hmj, hseek]
  simp only []
  rw [hscan]
  simp only []
  rw [hn, hw]

/-- One iteration of the word loop completes when the offsets it reaches stay
within `int64`. -/
theorem decodeStep_done (s : List Byte) (L m N : Nat) (hL1 : L ≤ 8 * m) (hL2 : 8 * m < L + 8)
    (hm63 : 8 * m < 2 ^ 63)
    (j : Nat) (hj : j < m) (hszj : 8 * j + N * (8 * m) < 2 ^ 63)
    (hfull : ∀ c, c + 1 < N → 8 * j + c * (8 * m) + 8 ≤ s.length)
    (st : DecodeState) (hs : st.f.s = s) :
    ∃ st', decodeStep L ((8 * m : Nat) : Int) 0 (((8 * m : Nat) : Int) - 8) (N : Int) (m : Int)
        (j : Int) st = Result.done st' ∧ st'.f.s = s := by
  have hseek : int64 ((0 : Int) + int64 ((j : Int) * (WordBytes : Nat))) = ((8 * j : Nat) : Int) := by
    unfold WordBytes
    simp only [Nat.cast_ofNat]
    have h1 : int64 ((j : Int) * 8) = (j : Int) * 8 := int64_of_lt (by omega) (by omega)
    rw [h1, int64_of_lt (by omega) (by omega)]
    push_cast; ring
  obtain ⟨q', hq'⟩ := voteLoop_spec s (8 * m) (by omega) N (8 * j) WordValues.zero hfull hszj
  rw [decodeStep]
  rw [hseek, Seek_set _ _ (by omega)]
  simp only [hs, Int.toNat_ofNat]
  rw [hq']
  simp only []
  have hu : uint64 ((8 * m : Nat) : Int) = 8 * m := uint64_of_lt (by omega)
  rw [hu]
  by_cases hc : ((j : Int) ≠ (m : Int) - 1 ∨ L = 8 * m)
  · rw [if_pos hc]
    exact ⟨_, rfl, rfl⟩
  · rw [if_neg hc]
    have hbc : uint64 (((8 * m : Nat) : Int) - (L : Int)) = 8 * m - L := by
      unfold uint64; omega
    have hwc : uint64 (((WordBytes : Nat) : Int) - ((8 * m - L : Nat) : Int)) = 8 - (8 * m - L) := by
      unfold uint64 WordBytes; omega
    simp only [hbc, hwc]
    rw [if_neg (by unfold WordBytes; omega)]
    exact ⟨_, rfl, rfl⟩

/-- The iteration of the word loop for `j = 1` ends with a fatal error when the
seek to the second word of the next copy passes the largest `int64`. -/
theorem decodeStep_overflow (s : List Byte) (hs16 : 16 ≤ s.length) (L m N : Nat)
    (hN : 1 ≤ N) (hm63 : 8 * m < 2 ^ 63) (hov : 2 ^ 63 ≤ 8 * m + 8)
    (st : DecodeState) (hs : st.f.s = s) :
    decodeStep L ((8 * m : Nat) : Int) 0 (((8 * m : Nat) : Int) - 8) (N : Int) (m : Int)
      ((1 : Nat) : Int) st = Result.fatal := by
  obtain ⟨n, rfl⟩ : ∃ n, N = n + 1 := ⟨N - 1, by omega⟩
  have hseek : int64 ((0 : Int) + int64 (((1 : Nat) : Int) * (WordBytes : Nat)))
      = ((8 : Nat) : Int) := by
    unfold WordBytes
    simp only [Nat.cast_ofNat, Nat.cast_one]
    have h1 : int64 ((1 : Int) * 8) = 8 := int64_of_lt (by omega) (by omega)
    rw [h1, int64_of_lt (by omega) (by omega)]
    omega
  have hmin : 8 + min 8 (s.length - 8) = 16 := by omega
  have hnone : ({ s := s, i := ((16 : Nat) : Int) } : Reader).Seek (((8 * m : Nat) : Int) - 8) 1
      = none := by
    unfold Reader.Seek
    simp only []
    rw [if_pos (by unfold int64; omega)]
  rw [decodeStep]
  rw [hseek, Seek_set _ _ (by omega)]
  simp only [hs, Int.toNat_ofNat]
  rw [voteLoop, binaryRead_eq]
  simp only []
  rw [hmin, hnone]

/-- The decoder proper ends with a fatal error on a body of 16 bytes when the
padded length is so large that the second word of a next copy would lie past the
largest `int64` offset. -/
theorem decodeReadSeeker_overflow (s : List Byte) (hs : s.length = 16) (L m : Nat)
    (hPL : paddedLength L = 8 * m) (hL1 : L ≤ 8 * m) (hL2 : 8 * m < L + 8)
    (hm63 : 8 * m < 2 ^ 63) (hov : 2 ^ 63 ≤ 8 * m + 8) (fuel : Nat) (hfuel : 1 < fuel)
    (e : Nat) :
    decodeReadSeeker fuel { s := s, i := 0 } L e = Result.fatal := by
  have hN : scanCount s.length (8 * m) = 1 := by
    unfold scanCount
    rw [hs, if_neg (by omega), Nat.div_eq_of_lt (by omega)]
  obtain ⟨q, hq⟩ := scanLoop_exact_zero s (8 * m) (by omega) (by rw [hN]; omega) fuel
    (by rw [hN]; exact hfuel)
  rw [hN] at hq
  obtain ⟨k, hk⟩ : ∃ k, m = k + 2 := ⟨m - 2, by omega⟩
  have hpl : int64 ((paddedLength L : Nat) : Int) = ((8 * m : Nat) : Int) := by
    rw [hPL]; exact int64_of_lt (by omega) (by omega)
  have hsl : int64 (((8 * m : Nat) : Int) - ((WordBytes : Nat) : Int)) = ((8 * m : Nat) : Int) - 8 := by
    unfold WordBytes
    simp only [Nat.cast_ofNat]
    exact int64_of_lt (by omega) (by omega)
  have hmaxj : Int.tdiv ((8 * m : Nat) : Int) ((WordBytes : Nat) : Int) = (m : Int) := by
    unfold WordBytes
    rw [Int.tdiv_eq_ediv (by omega) (by omega)]
    omega
  have hn : ((m : Int)).toNat = k + 1 + 1 := by rw [Int.toNat_ofNat, hk]
  obtain ⟨st1, hst1, hs1⟩ := decodeStep_done s L m 1 hL1 hL2 hm63 0 (by omega) (by omega)
    (fun c hc => absurd hc (by omega))
    { f := { s := s, i := q }, out := [], totalBitErrors := e } rfl
  have h0 : ((0 : Nat) : Int) = 0 := rfl
  have h1 : (0 : Int) + 1 = ((1 : Nat) : Int) := rfl
  rw [h0] at hst1
  have hw : wordLoop L ((8 * m : Nat) : Int) 0 (((8 * m : Nat) : Int) - 8) ((1 : Nat) : Int)
      (m : Int) (k + 1 + 1) 0 { f := { s := s, i := q }, out := [], totalBitErrors := e }
      = Result.fatal := by
    rw [wordLoop, hst1]
    simp only []
    rw [wordLoop, h1, decodeStep_overflow s (by omega) L m 1 (by omega) hm63 hov st1 hs1]
  exact decodeReadSeeker_eq_fatal fuel { s := s, i := 0 } L e (0, { s := s, i := 0 })
    (((1 : Nat) : Int), { s := s, i := q }) _ _ _ (k + 1 + 1) hpl hsl hmaxj hn
    (Seek_cur_zero s) hq hw

/-- C19 (as stated, refuted): the length `2 ^ 63 - 9` is below `2 ^ 63 - 8`, and on
a body of 16 bytes `decodeReadSeeker` does not complete: one copy is found, the
first word is written, and for the second word the seek to the next copy would
pass the largest `int64` offset, so that `Seek` fails and the run ends with
`log.Fatal`. -/
theorem decodeReadSeeker_fatal_for_long_length :
    (2 ^ 63 - 9 : Nat) < 2 ^ 63 - 8 ∧
      decodeReadSeeker 2 { s := List.replicate 16 0, i := 0 } (2 ^ 63 - 9) 0 = Result.fatal := by
  refine ⟨by norm_num, ?_⟩
  have hPL : paddedLength (2 ^ 63 - 9) = 8 * (2 ^ 60 - 1) := by
    rw [paddedLength_eq _ (by norm_num)]
    norm_num
  exact decodeReadSeeker_overflow (List.replicate 16 0) (List.length_replicate _ _)
    (2 ^ 63 - 9) (2 ^ 60 - 1) hPL (by norm_num) (by norm_num) (by norm_num) (by norm_num)
    2 (by norm_num) 0

/-- C19 (amended): the output length is fixed by the header alone, as long as the
offsets stay within `int64`.  For every length `L < 2 ^ 63 - 8` and every body such
that `(numCopies + 1) * PaddedLength < 2 ^ 63`, where `numCopies` is the number of
copies the scan finds, and such that the body is shorter than 8 bytes when
`L = 0`: `decodeReadSeeker`, given more fuel than that number, completes and writes
exactly `L` bytes.  A body shorter than 8 bytes, the empty one included, gives
`numCopies = 0`. -/
theorem output_length_fixed (s : List Byte) (L : Nat) (hL : L < 2 ^ 63 - 8)
    (hzero : L = 0 → s.length < 8)
    (hsz : (scanCount s.length (paddedLength L) + 1) * paddedLength L < 2 ^ 63)
    (fuel : Nat) (hfuel : scanCount s.length (paddedLength L) < fuel) (e : Nat) :
    (∃ out e', decodeReadSeeker fuel { s := s, i := 0 } L e = Result.done (out, e') ∧
      out.length = L) ∧
    (s.length < 8 → scanCount s.length (paddedLength L) = 0) := by
  constructor
  · by_cases h0 : L = 0
    · subst h0
      have hpl : int64 ((paddedLength 0 : Nat) : Int) ≤ 0 := by
        have : paddedLength 0 = 0 := by unfold paddedLength; simp
        rw [this]; unfold int64; omega
      exact ⟨[], e, decodeReadSeeker_nonpos s (hzero rfl) 0 hpl fuel (by omega) e, rfl⟩
    · have hPL : paddedLength L = 8 * ((L + 7) / 8) := by
        rw [paddedLength_eq L (by omega), Nat.mul_comm]
      rw [hPL] at hsz hfuel
      exact decodeReadSeeker_length s L ((L + 7) / 8) (by omega) hPL (by omega) (by omega)
        hsz fuel hfuel e
  · intro h
    unfold scanCount
    rw [if_pos h]

/-- Witness for C19 (amended): the length 5 and a body of 20 bytes; two copies are
found and 5 bytes are written. -/
theorem output_length_fixed_witness :
    (∃ out e', decodeReadSeeker 3 { s := List.replicate 20 7, i := 0 } 5 0
        = Result.done (out, e') ∧ out.length = 5) ∧
    ((List.replicate 20 (7 : Byte)).length < 8
      → scanCount (List.replicate 20 (7 : Byte)).length (paddedLength 5) = 0) :=
  output_length_fixed (List.replicate 20 7) 5 (by norm_num) (by decide)
    (by
      have h : paddedLength 5 = 8 := by rw [paddedLength_eq _ (by norm_num)]
      rw [h]; decide)
    3
    (by
      have h : paddedLength 5 = 8 := by rw [paddedLength_eq _ (by norm_num)]
      rw [h]; decide)
    0

/-! ## The bytes the encoder emits -/

theorem writeCopies_short (data : List Byte) (hdata : data ≠ []) (n : Nat) (k : Sink)
    (h : k.room / data.length < n) :
    (writeCopies data n 0 k).2.written
      = k.written ++ (List.replicate (k.room / data.length) data).flatten
        ++ data.take (k.room % data.length) := by
  rw [writeCopies_exhausted data hdata n 0 k h]

/-- The bytes `encode` leaves on a medium with room for the header: the header and
the whole copies, followed by a fragment of one more copy when the medium is
exhausted before the loop bound is reached. -/
theorem encode_written (D : List Byte) (n room : Nat) (hD : D.length ≤ 2 ^ 64 - 8)
    (hroom : 8 * LengthRedundancy ≤ room) :
    (encode n D { written := [], room := room }).2.written
      = (if 8 * LengthRedundancy + n * (padded D).length ≤ room then
          headerOf (List.replicate LengthRedundancy D.length)
            ++ (List.replicate n (padded D)).flatten
        else
          headerOf (List.replicate LengthRedundancy D.length)
            ++ (List.replicate ((room - 8 * LengthRedundancy) / (padded D).length)
                  (padded D)).flatten
            ++ (padded D).take ((room - 8 * LengthRedundancy) % (padded D).length)) := by
  split
  · rename_i h
    rw [encode_returned n D room (by omega) h]
  · rename_i h
    have hnP : 0 < n * (padded D).length := by omega
    have hpos : 0 < (padded D).length := by
      rcases Nat.eq_zero_or_pos (padded D).length with h0 | h0
      · rw [h0, Nat.mul_zero] at hnP; exact absurd hnP (Nat.lt_irrefl 0)
      · exact h0
    have hne : padded D ≠ [] := List.length_pos.1 hpos
    have h1 : writeHeader D.length LengthRedundancy { written := [], room := room }
        = { written := [] ++ headerOf (List.replicate LengthRedundancy D.length),
            room := room - 8 * LengthRedundancy } :=
      writeHeader_full D.length LengthRedundancy { written := [], room := room } hroom
    rw [List.nil_append] at h1
    have h2 : (room - 8 * LengthRedundancy) / (padded D).length < n := by
      rw [Nat.div_lt_iff_lt_mul hpos]; omega
    have h3 := writeCopies_short (padded D) hne n
      { written := headerOf (List.replicate LengthRedundancy D.length),
        room := room - 8 * LengthRedundancy } h2
    rw [encode, uint64_of_lt (by omega), h1, h3]

theorem encode_written_length (D : List Byte) (n room : Nat) (hD : D.length ≤ 2 ^ 64 - 8)
    (hroom : 8 * LengthRedundancy ≤ room) :
    (encode n D { written := [], room := room }).2.written.length
      = (if 8 * LengthRedundancy + n * (padded D).length ≤ room then
          8 * LengthRedundancy + n * (padded D).length
        else room) := by
  have hfl : ∀ k, (List.replicate k (padded D)).flatten.length = k * (padded D).length := by
    intro k
    rw [flatten_length_of (padded D).length _ (fun c hc => by rw [List.eq_of_mem_replicate hc]),
      List.length_replicate]
  rw [encode_written D n room hD hroom]
  split
  · rw [List.length_append, headerOf_length, List.length_replicate, hfl]
  · rename_i h
    have hdm := Nat.div_add_mod (room - 8 * LengthRedundancy) (padded D).length
    have hnP : 0 < n * (padded D).length := by omega
    have hpos : 0 < (padded D).length := by
      rcases Nat.eq_zero_or_pos (padded D).length with h0 | h0
      · rw [h0, Nat.mul_zero] at hnP; exact absurd hnP (Nat.lt_irrefl 0)
      · exact h0
    have hr := Nat.mod_lt (room - 8 * LengthRedundancy) hpos
    rw [Nat.mul_comm] at hdm
    rw [List.length_append, List.length_append, headerOf_length, List.length_replicate, hfl,
      List.length_take]
    omega

/-- C11 (as stated, refuted): on a medium of 80030 bytes `encode` writes the
payload "hi" in 3 complete copies and ends with `os.Exit(0)`, but the bytes it
emits are the header, the 3 copies and the first 6 bytes of a fourth copy: 80030
bytes, which is `80000 + n * 8` for no number `n` of copies. -/
theorem wire_format_fragment :
    (encode MaxNumCopies [104, 105] { written := [], room := 80030 }).1 = Exit.exit 0 ∧
      (encode MaxNumCopies [104, 105] { written := [], room := 80030 }).2.written
        = headerOf (List.replicate LengthRedundancy 2)
          ++ (List.replicate 3 [104, 105, 0, 0, 0, 0, 0, 0]).flatten
          ++ [104, 105, 0, 0, 0, 0] ∧
      (encode MaxNumCopies [104, 105] { written := [], room := 80030 }).2.written.length
        = 80030 ∧
      ¬ ∃ n : Nat, (encode MaxNumCopies [104, 105]
            { written := [], room := 80030 }).2.written.length
          = 8 * LengthRedundancy + n * paddedLength 2 := by
  have hp : padded [104, 105] = [104, 105, 0, 0, 0, 0, 0, 0] := by
    rw [padded_eq _ (by norm_num)]
    rfl
  have hPL : paddedLength 2 = 8 := by rw [paddedLength_eq _ (by norm_num)]
  have hex := encode_exhausted [104, 105] (by decide) 80030 (by norm_num) (by decide)
    (by unfold MaxNumCopies; norm_num)
  have hw := encode_written [104, 105] MaxNumCopies 80030 (by norm_num) (by decide)
  have hl := encode_written_length [104, 105] MaxNumCopies 80030 (by norm_num) (by decide)
  rw [hp] at hex hw hl
  have hc : ¬ (8 * LengthRedundancy + MaxNumCopies * ([104, 105, 0, 0, 0, 0, 0, 0] : List Byte).length
      ≤ 80030) := by decide
  rw [if_neg hc] at hw hl
  refine ⟨?_, ?_, hl, ?_⟩
  · rw [hex]
    rfl
  · rw [hw]
    rfl
  · rw [hl, hPL]
    unfold LengthRedundancy
    rintro ⟨n, hn⟩
    omega

/-- C11 (amended): the wire format.  For every payload `D` and every loop bound `n`,
on a medium with room for the header, the bytes `encode` emits are exactly 10000
repetitions of the 8-byte big-endian encoding of `len(D)`, followed by
back-to-back repetitions of `D` extended with `paddedLength(len(D)) - len(D)` zero
bytes, with no separator and no copy-count field: `n` repetitions, in all
`80000 + n * paddedLength(len(D))` bytes, when the medium has room for them; and
otherwise the repetitions that fit, followed by the leading fragment of one more
that the truncated last write leaves, filling the medium. -/
theorem wire_format (D : List Byte) (n room : Nat) (hD : D.length < 2 ^ 63)
    (hroom : 8 * LengthRedundancy ≤ room) :
    (encode n D { written := [], room := room }).2.written
      = (if 8 * LengthRedundancy + n * paddedLength D.length ≤ room then
          headerOf (List.replicate LengthRedundancy D.length)
            ++ (List.replicate n
                  (D ++ List.replicate (paddedLength D.length - D.length) 0)).flatten
        else
          headerOf (List.replicate LengthRedundancy D.length)
            ++ (List.replicate ((room - 8 * LengthRedundancy) / paddedLength D.length)
                  (D ++ List.replicate (paddedLength D.length - D.length) 0)).flatten
            ++ (D ++ List.replicate (paddedLength D.length - D.length) 0).take
                  ((room - 8 * LengthRedundancy) % paddedLength D.length)) ∧
    (encode n D { written := [], room := room }).2.written.length
      = (if 8 * LengthRedundancy + n * paddedLength D.length ≤ room then
          8 * LengthRedundancy + n * paddedLength D.length
        else room) := by
  have hD' : D.length ≤ 2 ^ 64 - 8 := by omega
  have hpad : padded D = D ++ List.replicate (paddedLength D.length - D.length) 0 := by
    rw [padded_eq D hD', paddedLength_eq _ hD']
  have hlen : (padded D).length = paddedLength D.length := by
    rw [padded_length D hD', paddedLength_eq _ hD']
  have hw := encode_written D n room hD' hroom
  have hl := encode_written_length D n room hD' hroom
  rw [hlen] at hw hl
  rw [hpad] at hw
  exact ⟨hw, hl⟩

/-- Witness for C11 (amended): the payload "hi" with a loop bound of one copy on a
medium with room for it. -/
theorem wire_format_witness :
    (encode 1 [104, 105] { written := [], room := 80008 }).2.written
      = (if 8 * LengthRedundancy + 1 * paddedLength ([104, 105] : List Byte).length ≤ 80008 then
          headerOf (List.replicate LengthRedundancy ([104, 105] : List Byte).length)
            ++ (List.replicate 1
                  (([104, 105] : List Byte) ++ List.replicate
                    (paddedLength ([104, 105] : List Byte).length
                      - ([104, 105] : List Byte).length) 0)).flatten
        else
          headerOf (List.replicate LengthRedundancy ([104, 105] : List Byte).length)
            ++ (List.replicate ((80008 - 8 * LengthRedundancy)
                    / paddedLength ([104, 105] : List Byte).length)
                  (([104, 105] : List Byte) ++ List.replicate
                    (paddedLength ([104, 105] : List Byte).length
                      - ([104, 105] : List Byte).length) 0)).flatten
            ++ (([104, 105] : List Byte) ++ List.replicate
                    (paddedLength ([104, 105] : List Byte).length
                      - ([104, 105] : List Byte).length) 0).take
                  ((80008 - 8 * LengthRedundancy)
                    % paddedLength ([104, 105] : List Byte).length)) ∧
    (encode 1 [104, 105] { written := [], room := 80008 }).2.written.length
      = (if 8 * LengthRedundancy + 1 * paddedLength ([104, 105] : List Byte).length ≤ 80008 then
          8 * LengthRedundancy + 1 * paddedLength ([104, 105] : List Byte).length
        else 80008) :=
  wire_format [104, 105] 1 80008 (by norm_num) (by decide)

end Reconstruct
